import Mathlib

/-!
Verification of the B+ tree implementation (BPlusTree.ts, InternalNode.ts,
LeafNode.ts, Node.ts) against its natural-language specification.

Keys and values are modelled as integers (the repository's tests exercise the
tree at numeric keys; key comparisons in the source use the native `<`, `>`
and `==` operators).

Two embeddings are used:

* a functional tree model (`BTree`, names `LeafNode.*`, `InternalNode.*`,
  `BPlusTree.*`) for the insert/search paths: the imperative upward split
  propagation of `BPlusTree.insert` (which walks parent pointers) is embedded
  as recursion along the descent path, each overflowing node handing its
  promoted key and new right sibling to its caller — the caller is exactly
  the parent that the `while` loop of the source visits next;

* an arena model (`NodeD`, `Heap`, names `*H`) in which nodes live in a store
  indexed by stable ids and parent/prev/next references are ids, used for the
  deletion, rebalancing and validation paths whose behaviour depends on
  pointer identity and on the leaf linked list.

An internal node in the source keeps a `null` sentinel at index 0 of its raw
`keys` array (`this.keys = [null as K]` in the constructor); `getKeys()`
returns `keys.slice(1)` and every scan starts at raw index 1.  The functional
model stores only the separators (the raw array minus the sentinel) and
translates every index accordingly; the arena model keeps the raw array, with
the integer 0 standing for the `null` sentinel (its value is never compared
by any reachable code path).
-/

/-- Functional model of the node tree: a leaf holds parallel `keys`/`values`
sequences, an internal node holds its separator keys (source raw keys without
the sentinel) and its children. -/
inductive BTree where
  | leaf (keys : List Int) (values : List Int)
  | internal (seps : List Int) (children : List BTree)

/-- Scan loop of `LeafNode.insert` (part_001 lines 80-91): returns the index
where the scan stopped and whether an equal key was found.  The source breaks
when `keys[i] > key`, and flags `exist` when `keys[i] == key`. -/
def LeafNode.scan : List Int → Int → Nat × Bool
  | [], _ => (0, false)
  | x :: xs, k =>
    if x > k then (0, false)
    else if x == k then (0, true)
    else
      let r := LeafNode.scan xs k
      (r.1 + 1, r.2)

/-- `LeafNode.insert` (part_001 lines 79-111): overwrite in place when the key
exists (returning `false`), otherwise splice the pair in at the scan position
(returning `true`). -/
def LeafNode.insert (ks : List Int) (vs : List Int) (k : Int) (v : Int) :
    List Int × List Int × Bool :=
  let r := LeafNode.scan ks k
  if r.2 then (ks, vs.set r.1 v, false)
  else (ks.take r.1 ++ k :: ks.drop r.1, vs.take r.1 ++ v :: vs.drop r.1, true)

/-- `LeafNode.search` (part_001 lines 118-122): `findIndex` of an equal key,
then the parallel value. -/
def LeafNode.search (ks : List Int) (vs : List Int) (k : Int) : Option Int :=
  match ks.findIdx? (fun x => x == k) with
  | some i => vs.get? i
  | none => none

/-- `LeafNode.split` (part_001 lines 158-182), content part.  `keep =
Math.ceil(values.length / 2)` entries stay; the loop re-inserts the
remaining pairs one by one into the fresh right leaf via `LeafNode.insert`.
Returns (left keys, left values, splitKey, right keys, right values); the
chain rewiring concerns the arena model.  `splitKey` is `newLeafNode.keys[0]`
(the source only calls `split` on a leaf with more than `order ≥ 3` keys, so
the right leaf is never empty there).  `LeafNode.moveStep` is one iteration
of the move loop (`newLeafNode.insert(this.keys[i], this.values[i])`). -/
def LeafNode.moveStep (acc : List Int × List Int) (kv : Int × Int) :
    List Int × List Int :=
  let r := LeafNode.insert acc.1 acc.2 kv.1 kv.2
  (r.1, r.2.1)

def LeafNode.split (ks : List Int) (vs : List Int) :
    List Int × List Int × Int × List Int × List Int :=
  let keep := (vs.length + 1) / 2
  let moved := (ks.drop keep).zip (vs.drop keep)
  let newLeaf := moved.foldl LeafNode.moveStep ([], [])
  (ks.take keep, vs.take keep, newLeaf.1.getD 0 0, newLeaf.1, newLeaf.2)

/-- `InternalNode.findChild` (InternalNode.ts lines 87-109) expressed on the
separator list: the raw scan starts at index 1 and breaks at the first raw key
greater than the target, returning `children[i - 1]`; over separators that is
the index of the first separator greater than the key (or the last child). -/
def InternalNode.findChildIdx : List Int → Int → Nat
  | [], _ => 0
  | s :: rest, k => if s > k then 0 else InternalNode.findChildIdx rest k + 1

/-- Position scan of `InternalNode.insertKeyAndChild` (lines 65-68):
`while (key > keys[i]) i++`, started at raw index 1, expressed on separators. -/
def InternalNode.insertPos : List Int → Int → Nat
  | [], _ => 0
  | s :: rest, k => if k > s then InternalNode.insertPos rest k + 1 else 0

/-- `InternalNode.insertKeyAndChild` (lines 56-81), content part.  When the
node holds no separator (raw `keys.length === 1`) the key and child are
pushed; otherwise the key is spliced in at the scan position and the child at
the matching raw position (one past the separator position). -/
def InternalNode.insertKeyAndChild (seps : List Int) (cs : List BTree)
    (k : Int) (c : BTree) : List Int × List BTree :=
  if seps.isEmpty then (seps ++ [k], cs ++ [c])
  else
    let i := InternalNode.insertPos seps k
    (seps.take i ++ k :: seps.drop i, cs.take (i + 1) ++ c :: cs.drop (i + 1))

/-- `InternalNode.split` (lines 140-160).  On the raw array
`splitIndex = Math.ceil(keys.length / 2)`; with `s` separators the raw length
is `s + 1`, so `splitIndex = (s + 2) / 2` here.  The middle key
`keys[splitIndex]` (separator number `splitIndex - 1`) is promoted and removed;
the left node keeps raw keys `[0, splitIndex)` and children `[0, splitIndex)`,
the right node gets raw keys `(splitIndex, …]` and children `[splitIndex, …]`. -/
def InternalNode.split (seps : List Int) (cs : List BTree) :
    List Int × List BTree × Int × List Int × List BTree :=
  let splitIndex := (seps.length + 2) / 2
  (seps.take (splitIndex - 1), cs.take splitIndex,
   seps.getD (splitIndex - 1) 0,
   seps.drop splitIndex, cs.drop splitIndex)

mutual
/-- Descent-and-propagate core of `BPlusTree.insert` (BPlusTree.ts lines
56-109).  Descends via `findChild`, inserts at the leaf, splits the leaf when
its key count exceeds `order` (line 67), and at each internal node inserts a
promoted separator and splits when the separator count reaches `order`
(line 90, `while (internalNode.getKeyCount() >= this.order)`).  The promoted
pair is returned to the caller — the parent visited next by the source's
upward walk. -/
def BPlusTree.insertAux (order : Nat) (k : Int) (v : Int) :
    BTree → BTree × Option (Int × BTree)
  | .leaf ks vs =>
    let r := LeafNode.insert ks vs k v
    if r.1.length ≤ order then (.leaf r.1 r.2.1, none)
    else
      let s := LeafNode.split r.1 r.2.1
      (.leaf s.1 s.2.1, some (s.2.2.1, .leaf s.2.2.2.1 s.2.2.2.2))
  | .internal seps cs =>
    let d := BPlusTree.insertChildren order k v seps cs
    match d.2 with
    | none => (.internal d.1.1 d.1.2, none)
    | some (sk, right) =>
      let p := InternalNode.insertKeyAndChild d.1.1 d.1.2 sk right
      if p.1.length ≥ order then
        let q := InternalNode.split p.1 p.2
        (.internal q.1 q.2.1, some (q.2.2.1, .internal q.2.2.2.1 q.2.2.2.2))
      else (.internal p.1 p.2, none)

/-- `node = node.findChild(key)` followed by the update of that child slot:
the scan of `findChild` (break at the first separator greater than the key,
InternalNode.ts lines 101-108) walked in lockstep over the separator and
child lists; the chosen child is replaced by its insertion result and the
child's promoted pair is passed through.  The empty-children case is
unreachable when every internal node has one more child than separators. -/
def BPlusTree.insertChildren (order : Nat) (k : Int) (v : Int) :
    List Int → List BTree → (List Int × List BTree) × Option (Int × BTree)
  | seps, [] => ((seps, []), none)
  | [], c :: cs =>
    let r := BPlusTree.insertAux order k v c
    (([], r.1 :: cs), r.2)
  | s :: seps, c :: cs =>
    if s > k then
      let r := BPlusTree.insertAux order k v c
      ((s :: seps, r.1 :: cs), r.2)
    else
      let r := BPlusTree.insertChildren order k v seps cs
      ((s :: r.1.1, c :: r.1.2), r.2)
end

/-- `BPlusTree.insert` (lines 56-109): when the propagation leaves a promoted
pair at the old root, a new internal root is created holding the old root and
the new right node around the promoted separator (lines 78-84 and 95-101). -/
def BPlusTree.insert (order : Nat) (t : BTree) (k : Int) (v : Int) : BTree :=
  match BPlusTree.insertAux order k v t with
  | (t', none) => t'
  | (t', some (sk, r)) => .internal [sk] [t', r]

mutual
/-- `BPlusTree.search` (lines 119-127): descend via `findChild` to a leaf,
then `LeafNode.search`. -/
def BPlusTree.search : BTree → Int → Option Int
  | .leaf ks vs, k => LeafNode.search ks vs k
  | .internal seps cs, k => BPlusTree.searchChildren seps cs k

/-- The `findChild` scan of the search descent, walked in lockstep over the
separator and child lists; the empty-children case is unreachable. -/
def BPlusTree.searchChildren : List Int → List BTree → Int → Option Int
  | _, [], _ => none
  | [], c :: _, k => BPlusTree.search c k
  | s :: seps, c :: cs, k =>
    if s > k then BPlusTree.search c k else BPlusTree.searchChildren seps cs k
end

/-- The freshly constructed tree: the root is an empty leaf
(BPlusTree.ts line 34). -/
def BPlusTree.empty : BTree := .leaf [] []

/-- Fold a sequence of `insert(key, value)` calls over a tree. -/
def BPlusTree.insertAll (order : Nat) (t : BTree) (ops : List (Int × Int)) : BTree :=
  ops.foldl (fun t kv => BPlusTree.insert order t kv.1 kv.2) t

/-- `BPlusTree.getHeight` (lines 239-250) on the functional model: follow
child 0 to a leaf, counting levels. -/
def BPlusTree.getHeightA : BTree → Nat
  | .leaf _ _ => 1
  | .internal _ [] => 1
  | .internal _ (c :: _) => BPlusTree.getHeightA c + 1

mutual
/-- Modelled from the spec for comparison (claim C5): identical to
`BPlusTree.insertAux` except that an internal node is split only when its
separator key count *exceeds* `order` ("`split()`: when key count exceeds
`order`"), i.e. the loop condition is `>` instead of the source's `>=`. -/
def BPlusTree.insertAuxSpecC5 (order : Nat) (k : Int) (v : Int) :
    BTree → BTree × Option (Int × BTree)
  | .leaf ks vs =>
    let r := LeafNode.insert ks vs k v
    if r.1.length ≤ order then (.leaf r.1 r.2.1, none)
    else
      let s := LeafNode.split r.1 r.2.1
      (.leaf s.1 s.2.1, some (s.2.2.1, .leaf s.2.2.2.1 s.2.2.2.2))
  | .internal seps cs =>
    let d := BPlusTree.insertChildrenSpecC5 order k v seps cs
    match d.2 with
    | none => (.internal d.1.1 d.1.2, none)
    | some (sk, right) =>
      let p := InternalNode.insertKeyAndChild d.1.1 d.1.2 sk right
      if p.1.length > order then
        let q := InternalNode.split p.1 p.2
        (.internal q.1 q.2.1, some (q.2.2.1, .internal q.2.2.2.1 q.2.2.2.2))
      else (.internal p.1 p.2, none)

/-- Descent of the spec-version insert, as in `BPlusTree.insertChildren`. -/
def BPlusTree.insertChildrenSpecC5 (order : Nat) (k : Int) (v : Int) :
    List Int → List BTree → (List Int × List BTree) × Option (Int × BTree)
  | seps, [] => ((seps, []), none)
  | [], c :: cs =>
    let r := BPlusTree.insertAuxSpecC5 order k v c
    (([], r.1 :: cs), r.2)
  | s :: seps, c :: cs =>
    if s > k then
      let r := BPlusTree.insertAuxSpecC5 order k v c
      ((s :: seps, r.1 :: cs), r.2)
    else
      let r := BPlusTree.insertChildrenSpecC5 order k v seps cs
      ((s :: r.1.1, c :: r.1.2), r.2)
end

/-- Spec-version tree insert built on `BPlusTree.insertAuxSpecC5`. -/
def BPlusTree.insertSpecC5 (order : Nat) (t : BTree) (k : Int) (v : Int) : BTree :=
  match BPlusTree.insertAuxSpecC5 order k v t with
  | (t', none) => t'
  | (t', some (sk, r)) => .internal [sk] [t', r]

/-- Spec-version fold of inserts. -/
def BPlusTree.insertAllSpecC5 (order : Nat) (t : BTree) (ops : List (Int × Int)) : BTree :=
  ops.foldl (fun t kv => BPlusTree.insertSpecC5 order t kv.1 kv.2) t

/-! ## Arena model

Nodes live in a store (`Heap`, a list indexed by stable ids); `parent`,
`prev` and `next` are ids, so pointer identity in the source is id equality
here.  An internal node's `keys` field is the raw array of the source,
including the sentinel slot at index 0 (value 0, standing for the `null` the
constructor places there; no reachable path ever compares it). -/

/-- Arena node: the two variants of `Node` (part_008 / part_001 /
InternalNode.ts). -/
inductive NodeD where
  | leaf (keys : List Int) (values : List Int)
      (parent : Option Nat) (prev : Option Nat) (next : Option Nat)
  | internal (keys : List Int) (children : List Nat) (parent : Option Nat)
deriving Repr, DecidableEq

abbrev Heap := List NodeD

/-- `Node.isLeaf` dispatch. -/
def NodeD.isLeafH : NodeD → Bool
  | .leaf .. => true
  | .internal .. => false

/-- `getKeyCount`: `keys.length` for a leaf (part_008 lines 29-31),
`keys.length - 1` for an internal node (InternalNode.ts lines 251-253).
Computed in `Int` as in the source's number arithmetic. -/
def NodeD.getKeyCountH : NodeD → Int
  | .leaf ks _ _ _ _ => ks.length
  | .internal ks _ _ => (ks.length : Int) - 1

/-- `getKeys`: the raw keys for a leaf, `keys.slice(1)` for an internal node
(InternalNode.ts lines 258-260). -/
def NodeD.getKeysH : NodeD → List Int
  | .leaf ks _ _ _ _ => ks
  | .internal ks _ _ => ks.drop 1

/-- `Node.getParent`. -/
def NodeD.parentH : NodeD → Option Nat
  | .leaf _ _ p _ _ => p
  | .internal _ _ p => p

/-- `Node.setParent`. -/
def NodeD.withParent : NodeD → Option Nat → NodeD
  | .leaf ks vs _ pr nx, p => .leaf ks vs p pr nx
  | .internal ks cs _, p => .internal ks cs p

/-- `halfFull`: the base class predicate `getKeyCount() >= Math.floor(order/2)`
(part_008 lines 33-35); `InternalNode` overrides it with
`this.keys.length >= Math.floor(order/2)` — the *raw* length, sentinel
included (InternalNode.ts lines 262-264). -/
def NodeD.halfFullH (order : Nat) : NodeD → Bool
  | .leaf ks vs p pr nx => decide ((NodeD.leaf ks vs p pr nx).getKeyCountH ≥ ((order / 2 : Nat) : Int))
  | .internal ks _ _ => decide ((ks.length : Int) ≥ ((order / 2 : Nat) : Int))

/-- `canBorrow`: `(getKeyCount() - 1) >= Math.floor(order/2)`
(part_008 lines 37-39). -/
def NodeD.canBorrowH (order : Nat) (nd : NodeD) : Bool :=
  decide (nd.getKeyCountH - 1 ≥ ((order / 2 : Nat) : Int))

/-- Heap read: `h.getN i` is dereferencing id `i`. -/
def Heap.getN (h : Heap) (i : Nat) : Option NodeD := h.get? i

/-- Heap write at an existing id. -/
def Heap.setN (h : Heap) (i : Nat) (nd : NodeD) : Heap := h.set i nd

/-- `setParent` through the heap. -/
def Heap.setParentN (h : Heap) (i : Nat) (p : Option Nat) : Heap :=
  match h.getN i with
  | some nd => h.setN i (nd.withParent p)
  | none => h

/-- The heap of a freshly constructed tree: one empty leaf root
(BPlusTree.ts line 34), id 0. -/
def Heap.fresh : Heap := [NodeD.leaf [] [] none none none]

/-- Descent loop shared by `insert` (lines 57-61), `search` (lines 120-124)
and `delete` (lines 140-144): `while (!node.isLeaf()) node = node.findChild(key)`.
`findChild` scans the raw keys from index 1 (InternalNode.ts lines 101-108),
which is `InternalNode.findChildIdx` on `keys.drop 1`.  Fuel bounds the loop
(the source loop is bounded by the tree height). -/
def BPlusTreeH.findLeaf (h : Heap) (k : Int) : Nat → Nat → Option Nat
  | 0, _ => none
  | fuel + 1, nid =>
    match h.getN nid with
    | some (.leaf ..) => some nid
    | some (.internal ks cs _) =>
      match cs.get? (InternalNode.findChildIdx (ks.drop 1) k) with
      | some c => BPlusTreeH.findLeaf h k fuel c
      | none => none
    | none => none

/-- `BPlusTree.search` (lines 119-127) on the arena. -/
def BPlusTreeH.search (h : Heap) (root : Nat) (k : Int) (fuel : Nat) : Option Int :=
  (BPlusTreeH.findLeaf h k fuel root).bind fun lid =>
    match h.getN lid with
    | some (.leaf ks vs _ _ _) => LeafNode.search ks vs k
    | _ => none

/-- `LeafNode.insert` applied at a heap id. -/
def LeafNode.insertH (h : Heap) (lid : Nat) (k v : Int) : Heap :=
  match h.getN lid with
  | some (.leaf ks vs p pr nx) =>
    let r := LeafNode.insert ks vs k v
    h.setN lid (.leaf r.1 r.2.1 p pr nx)
  | _ => h

/-- List part of `LeafNode.delete` (part_001 lines 129-147): `findIndex` of an
equal key, then splice both parallel arrays. -/
def LeafNode.deleteList (ks : List Int) (vs : List Int) (k : Int) :
    List Int × List Int × Bool :=
  match ks.findIdx? (fun x => x == k) with
  | none => (ks, vs, false)
  | some i => (ks.take i ++ ks.drop (i + 1), vs.take i ++ vs.drop (i + 1), true)

/-- `LeafNode.split` (part_001 lines 158-182) on the arena, including the
sibling-chain rewiring: the new leaf takes this leaf's `next`, its `prev` is
this leaf, this leaf's `next` becomes the new leaf, and the old `next`'s
`prev` is redirected to the new leaf.  Returns (heap, splitKey, new leaf id);
the fresh id is `h.length`. -/
def LeafNode.splitH (h : Heap) (lid : Nat) : Heap × Int × Nat :=
  match h.getN lid with
  | some (.leaf ks vs p pr nx) =>
    let r := LeafNode.split ks vs
    let newId := h.length
    let h1 := (h.setN lid (.leaf r.1 r.2.1 p pr (some newId)))
      ++ [.leaf r.2.2.2.1 r.2.2.2.2 none (some lid) nx]
    let h2 :=
      match nx with
      | some nid =>
        match h1.getN nid with
        | some (.leaf ks2 vs2 p2 _ nx2) => h1.setN nid (.leaf ks2 vs2 p2 (some newId) nx2)
        | _ => h1
      | none => h1
    (h2, r.2.2.1, newId)
  | _ => (h, 0, lid)

/-- `InternalNode.insertKeyAndChild` (InternalNode.ts lines 56-81) on the
arena: set the right child's parent, then either push (raw `keys.length === 1`)
or splice key and child in at the raw scan position. -/
def InternalNode.insertKeyAndChildH (h : Heap) (iid : Nat) (k : Int)
    (rightChild : Nat) : Heap :=
  let h1 := h.setParentN rightChild iid
  match h1.getN iid with
  | some (.internal ks cs p) =>
    if ks.length == 1 then h1.setN iid (.internal (ks ++ [k]) (cs ++ [rightChild]) p)
    else
      let i := InternalNode.insertPos (ks.drop 1) k + 1
      h1.setN iid (.internal (ks.take i ++ k :: ks.drop i)
        (cs.take i ++ rightChild :: cs.drop i) p)
  | _ => h1

/-- `InternalNode.split` (lines 140-160) on the arena:
`splitIndex = Math.ceil(keys.length / 2)` on the raw array; the new right node
starts from the constructor state `[null]` and receives raw keys past the
promoted one and the children from `splitIndex` on, each reparented to it.
Returns (heap, middleKey, new node id). -/
def InternalNode.splitH (h : Heap) (iid : Nat) : Heap × Int × Nat :=
  match h.getN iid with
  | some (.internal ks cs p) =>
    let splitIndex := (ks.length + 1) / 2
    let splitKey := ks.getD splitIndex 0
    let newId := h.length
    let newChildren := cs.drop splitIndex
    let h1 := (h.setN iid (.internal (ks.take splitIndex) (cs.take splitIndex) p))
      ++ [.internal (0 :: ks.drop (splitIndex + 1)) newChildren none]
    let h2 := newChildren.foldl (fun hh c => hh.setParentN c newId) h1
    (h2, splitKey, newId)
  | _ => (h, 0, iid)

/-- `getKeyCount()` read through the heap. -/
def Heap.keyCountAt (h : Heap) (nid : Nat) : Int :=
  match h.getN nid with
  | some nd => nd.getKeyCountH
  | none => 0

/-- Upward propagation loop of `BPlusTree.insert` (lines 90-108):
`while (internalNode.getKeyCount() >= this.order)` split the node, create a
new root when the node is the root (lines 95-101), insert the promoted key
into the parent and continue from the parent.  Returns (heap, root id). -/
def BPlusTreeH.insertLoop (order : Nat) : Nat → Heap → Nat → Nat → Heap × Nat
  | 0, h, _, root => (h, root)
  | fuel + 1, h, iid, root =>
    if Heap.keyCountAt h iid ≥ (order : Int) then
      let s := InternalNode.splitH h iid
      let hr :=
        if iid == root then
          let pid := s.1.length
          ((s.1 ++ [NodeD.internal [0] [iid] none]).setParentN iid pid, pid)
        else (s.1, root)
      match hr.1.getN iid with
      | some nd =>
        match nd.parentH with
        | some pid =>
          let h3 := InternalNode.insertKeyAndChildH hr.1 pid s.2.1 s.2.2
          BPlusTreeH.insertLoop order fuel h3 pid hr.2
        | none => (hr.1, hr.2)
      | none => (hr.1, hr.2)
    else (h, root)

/-- `BPlusTree.insert` (lines 56-109) on the arena: descend to the leaf,
`leaf.insert`, return if the leaf still holds at most `order` keys (line 67),
otherwise split the leaf, create a new root when the leaf was the root
(lines 78-84), insert the promoted separator into the parent and run the
upward loop from there.  Returns the new heap and root id; `none` models a
crash/fuel exhaustion (unreachable from a fresh tree with enough fuel). -/
def BPlusTreeH.insert (order : Nat) (h : Heap) (root : Nat) (k v : Int)
    (fuel : Nat) : Option (Heap × Nat) :=
  (BPlusTreeH.findLeaf h k fuel root).bind fun lid =>
    let h1 := LeafNode.insertH h lid k v
    if Heap.keyCountAt h1 lid ≤ (order : Int) then some (h1, root)
    else
      let s := LeafNode.splitH h1 lid
      let hr :=
        if lid == root then
          let pid := s.1.length
          ((s.1 ++ [NodeD.internal [0] [lid] none]).setParentN lid pid, pid)
        else (s.1, root)
      match hr.1.getN lid with
      | some nd =>
        match nd.parentH with
        | some pid =>
          let h4 := InternalNode.insertKeyAndChildH hr.1 pid s.2.1 s.2.2
          some (BPlusTreeH.insertLoop order fuel h4 pid hr.2)
        | none => none
      | none => none

/-- Fold a sequence of inserts over an arena tree state. -/
def BPlusTreeH.insertAll (order : Nat) (st : Heap × Nat) (ops : List (Int × Int))
    (fuel : Nat) : Option (Heap × Nat) :=
  ops.foldlM (fun st kv => BPlusTreeH.insert order st.1 st.2 kv.1 kv.2 fuel) st

/-- `InternalNode.findChildIndex` (lines 124-133): linear scan for the child
reference (object identity = id equality), `-1` when absent.  Result as `Int`
exactly as the source returns it. -/
def InternalNode.findChildIndexH (h : Heap) (pid cid : Nat) : Int :=
  match h.getN pid with
  | some (.internal _ cs _) =>
    match cs.findIdx? (fun c => c == cid) with
    | some i => (i : Int)
    | none => -1
  | _ => -1

/-- JS assignment `parent['keys'][idx] = key` on an internal node's raw keys
(BPlusTree.ts lines 161 and 171).  For `0 ≤ idx < length` the slot is
overwritten; a negative index only creates a non-index property on the array
object, invisible to every subsequent read, so the array is unchanged.  An
index `≥ length` never occurs on these call sites (`idx ≤ childCount - 1 =
rawKeys.length - 1`). -/
def Heap.writeRawKey (h : Heap) (pid : Nat) (idx : Int) (key : Int) : Heap :=
  match h.getN pid with
  | some (.internal ks cs p) =>
    if 0 ≤ idx ∧ idx < (ks.length : Int) then
      h.setN pid (.internal (ks.set idx.toNat key) cs p)
    else h
  | _ => h

/-- `LeafNode.tryBorrowFromLeft` (part_001 lines 188-204): when the chain
predecessor exists and `canBorrow()`, pop its last key/value pair, insert it
into this leaf, and return the borrowed key; otherwise return nothing.  The
two `pop()`s happen before the `undefined` check, so they mutate the sibling
even in the (unreachable) case where it was empty. -/
def LeafNode.tryBorrowFromLeftH (order : Nat) (h : Heap) (lid : Nat) :
    Heap × Option Int :=
  match h.getN lid with
  | some (.leaf _ _ _ pr _) =>
    match pr with
    | some leftId =>
      match h.getN leftId with
      | some (.leaf lks lvs lp lpr lnx) =>
        if NodeD.canBorrowH order (.leaf lks lvs lp lpr lnx) then
          let h1 := h.setN leftId (.leaf lks.dropLast lvs.dropLast lp lpr lnx)
          match lks.getLast?, lvs.getLast? with
          | some key, some value => (LeafNode.insertH h1 lid key value, some key)
          | _, _ => (h1, none)
        else (h, none)
      | _ => (h, none)
    | none => (h, none)
  | _ => (h, none)

/-- `LeafNode.tryBorrowFromRight` (part_001 lines 206-222): when the chain
successor exists and `canBorrow()`, shift its first key/value pair, insert it
into this leaf, and return what is *now* the sibling's first key (read after
the shift; `none` models the `undefined` the source would return). -/
def LeafNode.tryBorrowFromRightH (order : Nat) (h : Heap) (lid : Nat) :
    Heap × Option Int :=
  match h.getN lid with
  | some (.leaf _ _ _ _ nx) =>
    match nx with
    | some rightId =>
      match h.getN rightId with
      | some (.leaf rks rvs rp rpr rnx) =>
        if NodeD.canBorrowH order (.leaf rks rvs rp rpr rnx) then
          let h1 := h.setN rightId (.leaf rks.tail rvs.tail rp rpr rnx)
          match rks.head?, rvs.head? with
          | some key, some value =>
            let h2 := LeafNode.insertH h1 lid key value
            let res :=
              match h2.getN rightId with
              | some (.leaf rks2 _ _ _ _) => rks2.get? 0
              | _ => none
            (h2, res)
          | _, _ => (h1, none)
        else (h, none)
      | _ => (h, none)
    | none => (h, none)
  | _ => (h, none)

/-- `LeafNode.mergeWithRight` (part_001 lines 232-241): the left leaf appends
the right sibling's keys and values, takes over its `next` link, and redirects
that node's `prev` to itself.  The right sibling's own contents, its parent's
separator for it and the parent's child pointer to it are left untouched. -/
def LeafNode.mergeWithRightH (h : Heap) (lid rid : Nat) : Heap :=
  match h.getN lid, h.getN rid with
  | some (.leaf ks vs p pr _), some (.leaf rks rvs _ _ rnx) =>
    let h1 := h.setN lid (.leaf (ks ++ rks) (vs ++ rvs) p pr rnx)
    match rnx with
    | some nid =>
      match h1.getN nid with
      | some (.leaf nks nvs np _ nnx) => h1.setN nid (.leaf nks nvs np (some lid) nnx)
      | _ => h1
    | none => h1
  | _, _ => h

/-- `BPlusTree.delete` (BPlusTree.ts lines 139-191): descend to the leaf,
`leaf.delete` (returning `false` with no change when the key is absent); when
the leaf drops below `halfFull()`, read the parent (`none` models the
`TypeError` thrown by `parent.findChildIndex` when the leaf is the root and
`getParent()` is `null`), compute `splitIndex`, then in order: borrow left
(writing the parent's raw key slot `splitIndex - 1`), borrow right (writing
slot `splitIndex`), else merge into the chain predecessor if one exists (the
`else` branch for a missing predecessor is an empty stub in the source).
Returns `some (heap, removed?)`; `none` is the thrown `TypeError`. -/
def BPlusTreeH.delete (order : Nat) (h : Heap) (root : Nat) (k : Int)
    (fuel : Nat) : Option (Heap × Bool) :=
  (BPlusTreeH.findLeaf h k fuel root).bind fun lid =>
    match h.getN lid with
    | some (.leaf ks vs p pr nx) =>
      let d := LeafNode.deleteList ks vs k
      if !d.2.2 then some (h, false)
      else
        let h1 := h.setN lid (.leaf d.1 d.2.1 p pr nx)
        if NodeD.halfFullH order (.leaf d.1 d.2.1 p pr nx) then some (h1, true)
        else
          match p with
          | none => none
          | some pid =>
            let splitIndex := InternalNode.findChildIndexH h1 pid lid
            let bl := LeafNode.tryBorrowFromLeftH order h1 lid
            match bl.2 with
            | some newSplitKey =>
              some (Heap.writeRawKey bl.1 pid (splitIndex - 1) newSplitKey, true)
            | none =>
              let br := LeafNode.tryBorrowFromRightH order bl.1 lid
              match br.2 with
              | some newSplitKey =>
                some (Heap.writeRawKey br.1 pid splitIndex newSplitKey, true)
              | none =>
                match pr with
                | some leftId => some (LeafNode.mergeWithRightH br.1 leftId lid, true)
                | none => some (br.1, true)
    | _ => none

/-- `BPlusTree.isEmpty` (lines 231-233): the root is a leaf with zero keys. -/
def BPlusTreeH.isEmpty (h : Heap) (root : Nat) : Bool :=
  match h.getN root with
  | some nd => nd.isLeafH && nd.getKeyCountH == 0
  | none => false

/-- Leftmost-leaf descent (`while (!node.isLeaf()) node = getChild(0)`),
used by `getHeight` (lines 244-247), `size` (lines 259-261) and
`validateLeafLinkedList` (lines 492-495). -/
def BPlusTreeH.leftmostLeaf (h : Heap) : Nat → Nat → Option Nat
  | 0, _ => none
  | fuel + 1, nid =>
    match h.getN nid with
    | some (.leaf ..) => some nid
    | some (.internal _ cs _) =>
      match cs.get? 0 with
      | some c => BPlusTreeH.leftmostLeaf h fuel c
      | none => none
    | none => none

/-- `BPlusTree.getHeight` (lines 239-250): levels from the root down to the
leftmost leaf, inclusive. -/
def BPlusTreeH.getHeight (h : Heap) : Nat → Nat → Option Nat
  | 0, _ => none
  | fuel + 1, nid =>
    match h.getN nid with
    | some (.leaf ..) => some 1
    | some (.internal _ cs _) =>
      match cs.get? 0 with
      | some c => (BPlusTreeH.getHeight h fuel c).map (· + 1)
      | none => none
    | none => none

/-- Chain walk of `BPlusTree.size` (lines 263-268): sum the key counts along
the `next` links. -/
def BPlusTreeH.sizeWalk (h : Heap) : Nat → Option Nat → Int → Option Int
  | 0, some _, _ => none
  | _, none, acc => some acc
  | fuel + 1, some nid, acc =>
    match h.getN nid with
    | some (.leaf ks _ _ _ nx) => BPlusTreeH.sizeWalk h fuel nx (acc + ks.length)
    | _ => none

/-- `BPlusTree.size` (lines 256-270): walk the leaf chain from the leftmost
leaf, summing `getKeyCount()`. -/
def BPlusTreeH.size (h : Heap) (root : Nat) (fuel : Nat) : Option Int :=
  (BPlusTreeH.leftmostLeaf h fuel root).bind fun l0 =>
    BPlusTreeH.sizeWalk h fuel (some l0) 0

/-- `BPlusTree.defaultCompare` (lines 41-45). -/
def defaultCompare (a b : Int) : Int := if a < b then -1 else if a > b then 1 else 0

/-- Sorted-order check of `validate` step 2 (lines 360-366):
`compare(keys[i-1], keys[i]) >= 0` at any `i` is a violation. -/
def keysSortedB (cmp : Int → Int → Int) : List Int → Bool
  | a :: b :: rest => if cmp a b ≥ 0 then false else keysSortedB cmp (b :: rest)
  | _ => true

mutual
/-- `getAllKeysInSubtree` (lines 471-485): leaf keys, or the concatenation of
the children's subtree keys in order.  Fuel bounds the recursion depth (the
source recursion is bounded by the subtree size). -/
def BPlusTreeH.getAllKeysInSubtree (h : Heap) : Nat → Nat → List Int
  | 0, _ => []
  | fuel + 1, nid =>
    match h.getN nid with
    | some (.leaf ks _ _ _ _) => ks
    | some (.internal _ cs _) => BPlusTreeH.getAllKeysList h fuel cs
    | none => []

/-- The child loop of `getAllKeysInSubtree`, pushing each child's subtree
keys in order. -/
def BPlusTreeH.getAllKeysList (h : Heap) : Nat → List Nat → List Int
  | 0, _ => []
  | _ + 1, [] => []
  | fuel + 1, c :: cs =>
    BPlusTreeH.getAllKeysInSubtree h fuel c ++ BPlusTreeH.getAllKeysList h fuel cs
end

/-- Separator checks of `validate` step 7 (lines 431-455): every key in
`children[i]`'s subtree must compare `< 0` against separator `keys[i]`, and
every key in `children[i+1]`'s subtree must compare `≥ 0`. -/
def BPlusTreeH.checkSeps (cmp : Int → Int → Int) (h : Heap) (fuel : Nat)
    (cs : List Nat) : List Int → Nat → Bool
  | [], _ => true
  | separator :: moreSeps, i =>
    let leftKeys :=
      match cs.get? i with
      | some c => BPlusTreeH.getAllKeysInSubtree h fuel c
      | none => []
    let rightKeys :=
      match cs.get? (i + 1) with
      | some c => BPlusTreeH.getAllKeysInSubtree h fuel c
      | none => []
    if leftKeys.all (fun key => cmp key separator < 0)
        && rightKeys.all (fun key => ¬(cmp key separator < 0)) then
      BPlusTreeH.checkSeps cmp h fuel cs moreSeps (i + 1)
    else false

mutual
/-- `validateNode` inside `BPlusTree.validate` (lines 336-457).  Checks, in
source order: key-count bounds (root exempt from the minimum, a non-leaf root
must have a key), sorted keys, the `[minKey, maxKey)` range, leaf level
uniformity (`expectedLeafLevel` is threaded as the last argument and returned
updated), `childCount == keyCount + 1`, the children's parent pointers with
recursive descent, and the separator/subtree conditions.  `none` models a
thrown diagnostic. -/
def BPlusTreeH.validateNode (cmp : Int → Int → Int) (h : Heap) (order : Nat)
    (root : Nat) : Nat → Nat → Nat → Option Int → Option Int → Option Nat →
    Option (Option Nat)
  | 0, _, _, _, _, _ => none
  | fuel + 1, nid, level, minKey, maxKey, ell =>
    match h.getN nid with
    | none => none
    | some nd =>
      let keys := nd.getKeysH
      if (if nid == root then !nd.isLeafH && nd.getKeyCountH == 0
          else !(nd.halfFullH order)) then none
      else if !(keysSortedB cmp keys) then none
      else if (match minKey with
               | some m => keys.length > 0 && cmp (keys.getD 0 0) m < 0
               | none => false) then none
      else if (match maxKey with
               | some m => keys.length > 0 && cmp (keys.getLastD 0) m ≥ 0
               | none => false) then none
      else
        match nd with
        | .leaf .. =>
          match ell with
          | none => some (some level)
          | some e => if level == e then some ell else none
        | .internal _ cs _ =>
          if cs.length != keys.length + 1 then none
          else
            match BPlusTreeH.validateChildren cmp h order root fuel nid cs 0
                keys minKey maxKey level ell with
            | none => none
            | some ell' =>
              if BPlusTreeH.checkSeps cmp h fuel cs keys 0 then some ell'
              else none
termination_by structural fuel => fuel

/-- Child loop of `validateNode` (lines 407-426): parent back-reference check,
per-child key window (`keys[i-1]` / `keys[i]`, with the node's own bounds at
the ends), recursive validation, threading `expectedLeafLevel`.  Fuel is
consumed along the loop as well, so it bounds the visited node count. -/
def BPlusTreeH.validateChildren (cmp : Int → Int → Int) (h : Heap)
    (order : Nat) (root : Nat) : Nat → Nat →
    List Nat → Nat → List Int → Option Int → Option Int → Nat → Option Nat →
    Option (Option Nat)
  | 0, _, _, _, _, _, _, _, _ => none
  | _ + 1, _, [], _, _, _, _, _, ell => some ell
  | fuel + 1, pid, c :: rest, i, keys, minKey, maxKey, level, ell =>
    match h.getN c with
    | none => none
    | some cnd =>
      if cnd.parentH != some pid then none
      else
        let childMin := if i == 0 then minKey else keys.get? (i - 1)
        let childMax := if i == keys.length then maxKey else keys.get? i
        match BPlusTreeH.validateNode cmp h order root fuel c (level + 1)
            childMin childMax ell with
        | none => none
        | some ell' =>
          BPlusTreeH.validateChildren cmp h order root fuel pid rest (i + 1)
            keys minKey maxKey level ell'
termination_by structural fuel => fuel
end

/-- Leaf-chain walk of `validateLeafLinkedList` (lines 502-538): cycle check
against the visited set, `prev` pointer identity check, and sorted order
across each leaf boundary. -/
def BPlusTreeH.walkChain (cmp : Int → Int → Int) (h : Heap) :
    Nat → Option Nat → Option Nat → List Nat → Bool
  | 0, some _, _, _ => false
  | _, none, _, _ => true
  | fuel + 1, some cur, prevLeaf, visited =>
    if visited.contains cur then false
    else
      match h.getN cur with
      | some (.leaf ks _ _ pr nx) =>
        if pr != prevLeaf then false
        else
          let crossOk :=
            match prevLeaf with
            | none => true
            | some pl =>
              match h.getN pl with
              | some (.leaf pks _ _ _ _) =>
                match pks.getLast?, ks.head? with
                | some lastPrev, some firstCur => !(cmp lastPrev firstCur ≥ 0)
                | _, _ => true
              | _ => true
          if crossOk then BPlusTreeH.walkChain cmp h fuel nx (some cur) (cur :: visited)
          else false
      | _ => false

/-- `BPlusTree.validate` (lines 326-466): an empty tree is valid; otherwise
validate recursively from the root, then validate the leaf linked list from
the leftmost leaf.  `true` iff no diagnostic is thrown. -/
def BPlusTreeH.validate (cmp : Int → Int → Int) (h : Heap) (root : Nat)
    (order : Nat) (fuel : Nat) : Bool :=
  if BPlusTreeH.isEmpty h root then true
  else
    match BPlusTreeH.validateNode cmp h order root fuel root 1 none none none with
    | none => false
    | some _ =>
      match BPlusTreeH.leftmostLeaf h fuel root with
      | some l0 => BPlusTreeH.walkChain cmp h fuel (some l0) none []
      | none => false

/-- `BPlusTree.toArray` (lines 310-313): the body is
`throw new Error('Not implemented')`; `none` is that thrown error. -/
def BPlusTreeH.toArray (_h : Heap) (_root : Nat) : Option (List (Int × Int)) :=
  none

/-- `BPlusTree.range` (lines 203-206): the body is
`throw new Error('Not implemented')`; `none` is that thrown error. -/
def BPlusTreeH.range (_h : Heap) (_root : Nat) (_startKey _endKey : Int) :
    Option (List (Int × Int)) :=
  none

/-- `BPlusTree.min` (lines 213-216): the body is
`throw new Error('Not implemented')`; `none` is that thrown error. -/
def BPlusTreeH.min (_h : Heap) (_root : Nat) : Option (Option Int) := none

/-- `BPlusTree.max` (lines 223-226): the body is
`throw new Error('Not implemented')`; `none` is that thrown error. -/
def BPlusTreeH.max (_h : Heap) (_root : Nat) : Option (Option Int) := none

/-! ## Object wrappers carrying the injected comparator

The `BPlusTree` class stores `order`, `root` and `compare` (constructor,
lines 29-36).  On the insert/search/delete paths every key comparison uses
the native `<`, `>`, `==` operators of the key type; `this.compare` is only
read by `validate`. -/

/-- `BPlusTree` object state over the functional root. -/
structure BPlusTreeA where
  order : Nat
  root : BTree
  compare : Int → Int → Int

/-- The `insert` method on the object (lines 56-109): uses `this.order` and
`this.root` only. -/
def BPlusTreeA.insertM (t : BPlusTreeA) (k : Int) (v : Int) : BPlusTreeA :=
  { t with root := BPlusTree.insert t.order t.root k v }

/-- The `search` method on the object (lines 119-127): uses `this.root` only. -/
def BPlusTreeA.searchM (t : BPlusTreeA) (k : Int) : Option Int :=
  BPlusTree.search t.root k

/-- `BPlusTree` object state over the arena root. -/
structure BPlusTreeD where
  order : Nat
  heap : Heap
  root : Nat
  compare : Int → Int → Int

/-- The `delete` method on the object (lines 139-191): uses `this.order`,
the node store and `this.root` only. -/
def BPlusTreeD.deleteM (t : BPlusTreeD) (k : Int) (fuel : Nat) :
    Option (BPlusTreeD × Bool) :=
  (BPlusTreeH.delete t.order t.heap t.root k fuel).map
    (fun r => ({ t with heap := r.1 }, r.2))

/-- The `validate` method on the object (lines 326-466): the only method that
consults `this.compare`. -/
def BPlusTreeD.validateM (t : BPlusTreeD) (fuel : Nat) : Bool :=
  BPlusTreeH.validate t.compare t.heap t.root t.order fuel

/-! ## Specification-side model for the functional tree -/

/-- Root separators of a functional tree (observation used by claim C5). -/
def BTree.rootSeps : BTree → List Int
  | .leaf _ _ => []
  | .internal seps _ => seps

mutual
/-- All internal nodes hold fewer than `order` separator keys. -/
def BTree.internalCountsLt (order : Nat) : BTree → Bool
  | .leaf _ _ => true
  | .internal seps cs =>
    decide (seps.length < order) && BTree.internalCountsLtList order cs

/-- `BTree.internalCountsLt` over a child list. -/
def BTree.internalCountsLtList (order : Nat) : List BTree → Bool
  | [] => true
  | c :: cs => c.internalCountsLt order && BTree.internalCountsLtList order cs
end

mutual
/-- In-order list of the records of a functional tree. -/
def BTree.toList : BTree → List (Int × Int)
  | .leaf ks vs => ks.zip vs
  | .internal _ cs => BTree.toListChildren cs

/-- Concatenated records of a child list, in order. -/
def BTree.toListChildren : List BTree → List (Int × Int)
  | [] => []
  | c :: cs => c.toList ++ BTree.toListChildren cs
end

/-- Reference model of a key-value store over a sorted association list:
insertion keeps keys strictly sorted and overwrites an equal key in place. -/
def modelInsert : List (Int × Int) → Int → Int → List (Int × Int)
  | [], k, v => [(k, v)]
  | (a, b) :: rest, k, v =>
    if k < a then (k, v) :: (a, b) :: rest
    else if k = a then (k, v) :: rest
    else (a, b) :: modelInsert rest k v

/-- Reference lookup: value of the first pair with the given key. -/
def modelLookup (l : List (Int × Int)) (k : Int) : Option Int :=
  (l.find? (fun kv => kv.1 == k)).map (fun kv => kv.2)

/-- The most recently inserted value for `k` in an operation sequence. -/
def lastInserted (ops : List (Int × Int)) (k : Int) : Option Int :=
  (ops.reverse.find? (fun kv => kv.1 == k)).map (fun kv => kv.2)

/-- `lo ≤ k` for an optional (strict) lower bound: the right subtree of a
separator holds keys `≥` the separator. -/
def loLE (lo : Option Int) (k : Int) : Prop := ∀ a ∈ lo, a ≤ k

/-- `lo < k` for an optional lower bound (used for separators, which lie
strictly inside their window). -/
def loLT (lo : Option Int) (k : Int) : Prop := ∀ a ∈ lo, a < k

/-- `k < hi` for an optional upper bound: the left subtree of a separator
holds keys strictly below it. -/
def hiGT (hi : Option Int) (k : Int) : Prop := ∀ a ∈ hi, k < a

mutual
/-- Search-tree well-formedness of the functional model within an optional
key window `[lo, hi)`: leaf keys are strictly sorted, parallel to the values
and inside the window; an internal node's separators and children satisfy the
alternating chain `WFs`. -/
inductive WF (order : Nat) : Option Int → Option Int → BTree → Prop where
  | leaf {lo hi : Option Int} {ks : List Int} {vs : List Int}
      (hsort : ks.Chain' (· < ·)) (hlen : ks.length = vs.length)
      (hbound : ∀ k ∈ ks, loLE lo k ∧ hiGT hi k) :
      WF order lo hi (.leaf ks vs)
  | internal {lo hi : Option Int} {seps : List Int} {cs : List BTree}
      (hs : WFs order lo hi seps cs) :
      WF order lo hi (.internal seps cs)

/-- Chain of separators and children of an internal node: `children[i]` lives
in the window between the neighbouring separators, each separator lies
strictly inside the node's own window, and there is exactly one more child
than separators. -/
inductive WFs (order : Nat) : Option Int → Option Int → List Int → List BTree → Prop where
  | single {lo hi : Option Int} {c : BTree} (hc : WF order lo hi c) :
      WFs order lo hi [] [c]
  | cons {lo hi : Option Int} {s : Int} {seps : List Int} {c : BTree} {cs : List BTree}
      (hlo : loLT lo s) (hhi : hiGT hi s)
      (hc : WF order lo (some s) c) (hrest : WFs order (some s) hi seps cs) :
      WFs order lo hi (s :: seps) (c :: cs)
end

/-- Specification of one `insertAux` call within a window: when no promotion
happens the result is well-formed over the same window with the model-level
insertion applied; when a pair is promoted, the two nodes are well-formed on
the two sides of the promoted key, which lies strictly inside the window, and
their records concatenate to the model-level insertion. -/
def InsSpec (order : Nat) (k : Int) (v : Int) (lo hi : Option Int)
    (t : BTree) (res : BTree × Option (Int × BTree)) : Prop :=
  match res with
  | (t', none) => WF order lo hi t' ∧ t'.toList = modelInsert t.toList k v
  | (t', some (sk, r)) =>
      WF order lo (some sk) t' ∧ WF order (some sk) hi r ∧
      loLT lo sk ∧ hiGT hi sk ∧
      t'.toList ++ r.toList = modelInsert t.toList k v

/-- Specification of one `insertChildren` call: the separators pass through
unchanged, and either the updated children are well-formed against them with
the model-level insertion applied, or a pair was promoted from the updated
child and feeding it to `insertKeyAndChild` yields a well-formed node with
one more separator and the model-level insertion applied. -/
def InsChildrenSpec (order : Nat) (k : Int) (v : Int) (lo hi : Option Int)
    (seps : List Int) (cs : List BTree)
    (res : (List Int × List BTree) × Option (Int × BTree)) : Prop :=
  res.1.1 = seps ∧
  match res.2 with
  | none =>
      WFs order lo hi seps res.1.2 ∧
      BTree.toListChildren res.1.2 = modelInsert (BTree.toListChildren cs) k v
  | some (sk, r) =>
      loLT lo sk ∧ hiGT hi sk ∧
      (let p := InternalNode.insertKeyAndChild seps res.1.2 sk r
       WFs order lo hi p.1 p.2 ∧ p.1.length = seps.length + 1 ∧
       BTree.toListChildren p.2 = modelInsert (BTree.toListChildren cs) k v)

/-! ## Concrete traces used by individual claims -/

/-- Insert keys 10,20,30,40,50 (values equal to keys), order 4. -/
def opsFive : List (Int × Int) := [(10, 10), (20, 20), (30, 30), (40, 40), (50, 50)]

/-- Keys 1..8 (values equal to keys). -/
def opsEight : List (Int × Int) := (List.range 8).map (fun n => ((n : Int) + 1, (n : Int) + 1))

/-- The heap produced by inserting 10,20,30,40,50 (order 4) into a fresh
tree: two leaves under an internal root (id 2). -/
def heapFive : Heap :=
  [NodeD.leaf [10, 20, 30] [10, 20, 30] (some 2) none (some 1),
   NodeD.leaf [40, 50] [40, 50] (some 2) (some 0) none,
   NodeD.internal [0, 40] [0, 1] none]

/-! ## Theorems -/

/-- C2 (code_bug evaluation).  From a fresh order-4 tree, inserting
10,20,30,40,50 yields a state `validate()` accepts, but the interleaving that
continues with `delete(50)` leaves a state `validate()` rejects: the leaf
underflow is repaired by borrowing key 30 from the left sibling, and the code
writes the refreshed separator at raw index `splitIndex - 1` — the sentinel
slot — so the parent still carries the stale separator 40 while its right
child now starts at 30. -/
theorem C2_validate_fails_after_delete :
    ((BPlusTreeH.insertAll 4 (Heap.fresh, 0) opsFive 20).map
      (fun st => BPlusTreeH.validate defaultCompare st.1 st.2 4 20) = some true) ∧
    ((do
      let st ← BPlusTreeH.insertAll 4 (Heap.fresh, 0) opsFive 20
      let r ← BPlusTreeH.delete 4 st.1 st.2 50 20
      pure (r.2, BPlusTreeH.validate defaultCompare r.1 st.2 4 20))
      = some (true, false)) := by
  constructor <;> rfl

/-- C3 (code_bug evaluation).  From a fresh order-4 tree, insert
10,20,30,40,50, delete 30, then delete 50: the last delete underflows the
right leaf, both borrows fail, and the leaf is merged into its left sibling —
but the stale separator 40 and the child pointer to the merged-away leaf are
left in the parent, no rebalancing is applied to the parent, and the root is
not collapsed: the root is still the internal node with raw keys `[0, 40]`
and two children, the height is still 2, and `validate()` rejects the state
(the claimed behaviour would shrink the tree to a single root leaf). -/
theorem C3_merge_leaves_stale_parent :
    (do
      let st ← BPlusTreeH.insertAll 4 (Heap.fresh, 0) opsFive 20
      let r1 ← BPlusTreeH.delete 4 st.1 st.2 30 20
      let r2 ← BPlusTreeH.delete 4 r1.1 st.2 50 20
      pure (r2.2, BPlusTreeH.validate defaultCompare r2.1 st.2 4 20,
        BPlusTreeH.getHeight r2.1 20 st.2, Heap.getN r2.1 st.2))
    = some (true, false, some 2, some (.internal [0, 40] [0, 1] none)) := by
  rfl

/-- C4 (code_bug evaluation).  A fresh order-4 tree after `insert(10, 100)`
has a root leaf holding the key; `delete(10)` removes it, the leaf (0 keys)
fails `halfFull()`, and the code reads `leaf.getParent()` — `null` for the
root — and calls `findChildIndex` on it: a `TypeError` (`none` here) instead
of the claimed successful `true` return. -/
theorem C4_root_leaf_delete_crashes :
    ((BPlusTreeH.insert 4 Heap.fresh 0 10 100 20).map
      (fun st => BPlusTreeH.search st.1 st.2 10 20) = some (some 100)) ∧
    ((do
      let st ← BPlusTreeH.insert 4 Heap.fresh 0 10 100 20
      BPlusTreeH.delete 4 st.1 st.2 10 20) = none) := by
  constructor <;> rfl

/-- C8 (code_bug evaluation).  After `insert(10, 100)` the tree is non-empty,
but `toArray()`, `range()`, `min()` and `max()` all throw
`Error('Not implemented')` (`none` here) instead of returning the claimed
sorted sequence of records. -/
theorem C8_toArray_throws :
    ((BPlusTreeH.insert 4 Heap.fresh 0 10 100 20).map
      (fun st => (BPlusTreeH.isEmpty st.1 st.2,
        BPlusTreeH.toArray st.1 st.2,
        BPlusTreeH.range st.1 st.2 10 10,
        BPlusTreeH.min st.1 st.2,
        BPlusTreeH.max st.1 st.2))
      = some (false, none, none, none, none)) := by
  rfl

/-- C6 counterexample: an order-4 internal node with one separator (raw keys
`[0, 50]`, sentinel included).  `halfFull()` returns `true` — the override
compares the raw length 2 against `floor(order/2) = 2` — although its key
count 1 is below `floor(order/2)`, so "halfFull() returns true exactly when
its key count is at least floor(order/2)" is false for internal nodes. -/
theorem C6_internal_halfFull_cex :
    NodeD.halfFullH 4 (NodeD.internal [0, 50] [0, 1] none) = true ∧
    ¬((NodeD.internal [0, 50] [0, 1] none).getKeyCountH ≥ ((4 / 2 : Nat) : Int)) := by
  constructor
  · rfl
  · decide

/-- C6 (amended): `halfFull()` is `keyCount ≥ floor(order/2)` for a leaf but
`keyCount + 1 ≥ floor(order/2)` for an internal node (the override compares
the raw keys length, which counts the sentinel); `canBorrow()` is
`keyCount − 1 ≥ floor(order/2)` for both variants. -/
theorem C6_halfFull_canBorrow (order : Nat) (nd : NodeD) :
    (nd.halfFullH order = true ↔
      ((nd.isLeafH = true → nd.getKeyCountH ≥ ((order / 2 : Nat) : Int)) ∧
       (nd.isLeafH = false → nd.getKeyCountH + 1 ≥ ((order / 2 : Nat) : Int)))) ∧
    (nd.canBorrowH order = true ↔ nd.getKeyCountH - 1 ≥ ((order / 2 : Nat) : Int)) := by
  cases nd <;>
    simp [NodeD.halfFullH, NodeD.canBorrowH, NodeD.getKeyCountH, NodeD.isLeafH] <;>
    omega

/-- C10: the comparator injected at construction is not consulted by
`insert`, `search` or `delete` — their key comparisons use the native
operators — so two trees differing only in their `compare` field produce the
same root/heap, the same placements and the same return values under each
operation. -/
theorem C10_comparator_independent (order : Nat) (root : BTree)
    (c1 c2 : Int → Int → Int) (k : Int) (v : Int)
    (heap : Heap) (hroot : Nat) (fuel : Nat) :
    (BPlusTreeA.insertM ⟨order, root, c1⟩ k v).root
      = (BPlusTreeA.insertM ⟨order, root, c2⟩ k v).root ∧
    BPlusTreeA.searchM ⟨order, root, c1⟩ k = BPlusTreeA.searchM ⟨order, root, c2⟩ k ∧
    (BPlusTreeD.deleteM ⟨order, heap, hroot, c1⟩ k fuel).map
        (fun r => (r.1.heap, r.1.root, r.2))
      = (BPlusTreeD.deleteM ⟨order, heap, hroot, c2⟩ k fuel).map
        (fun r => (r.1.heap, r.1.root, r.2)) := by
  refine ⟨rfl, rfl, ?_⟩
  cases h : BPlusTreeH.delete order heap hroot k fuel <;>
    simp [BPlusTreeD.deleteM, h]

/-- C5 counterexample.  Order 3, inserting keys 1..8 into a fresh tree: the
8th insert promotes separator 7 into the root, which then holds exactly
`order = 3` separator keys — and the code splits it (loop condition
`getKeyCount() >= order`), leaving a root with the single separator 5 and
height 3.  Under the claim ("an internal node holding exactly order separator
keys after receiving a promoted key is left unsplit", split only above
`order`, `BPlusTree.insertAuxSpecC5`) the root would keep its three
separators 3,5,7 and the height would stay 2. -/
theorem C5_split_at_exactly_order_cex :
    (BPlusTree.insertAll 3 BPlusTree.empty (opsEight.take 7)).rootSeps = [3, 5] ∧
    (BPlusTree.insertAll 3 BPlusTree.empty opsEight).rootSeps = [5] ∧
    BPlusTree.getHeightA (BPlusTree.insertAll 3 BPlusTree.empty opsEight) = 3 ∧
    (BPlusTree.insertAllSpecC5 3 BPlusTree.empty opsEight).rootSeps = [3, 5, 7] ∧
    BPlusTree.getHeightA (BPlusTree.insertAllSpecC5 3 BPlusTree.empty opsEight) = 2 := by
  refine ⟨by decide, by decide, by decide, by decide, by decide⟩

/-- C9: deleting a key that is absent from the tree (the leaf the descent
reaches does not contain it, equivalently `search` returns empty) returns
`false` and leaves the heap — hence `size()` and the `validate()` verdict —
unchanged. -/
theorem C9_absent_delete_noop (order : Nat) (h : Heap) (root : Nat) (k : Int)
    (fuel : Nat) (lid : Nat) (ks vs : List Int) (p pr nx : Option Nat)
    (hfind : BPlusTreeH.findLeaf h k fuel root = some lid)
    (hnode : h.getN lid = some (.leaf ks vs p pr nx))
    (habsent : ks.findIdx? (fun x => x == k) = none) :
    BPlusTreeH.delete order h root k fuel = some (h, false) ∧
    BPlusTreeH.search h root k fuel = none ∧
    (BPlusTreeH.delete order h root k fuel).map (fun r => BPlusTreeH.size r.1 root fuel)
      = some (BPlusTreeH.size h root fuel) ∧
    (BPlusTreeH.delete order h root k fuel).map
        (fun r => BPlusTreeH.validate defaultCompare r.1 root order fuel)
      = some (BPlusTreeH.validate defaultCompare h root order fuel) := by
  have hdel : BPlusTreeH.delete order h root k fuel = some (h, false) := by
    simp only [BPlusTreeH.delete, hfind, Option.some_bind]
    rw [hnode]
    simp [LeafNode.deleteList, habsent]
  refine ⟨hdel, ?_, ?_, ?_⟩
  · simp only [BPlusTreeH.search, hfind, Option.some_bind]
    rw [hnode]
    simp [LeafNode.search, habsent]
  · rw [hdel]; rfl
  · rw [hdel]; rfl

/-- Witness for C9: in the order-4 tree holding 10,20,30,40,50, key 35 is
absent (the descent reaches the left leaf `[10,20,30]`), and `delete(35)`
returns `false` with the heap unchanged. -/
theorem C9_witness :
    BPlusTreeH.findLeaf heapFive 35 20 2 = some 0 ∧
    BPlusTreeH.delete 4 heapFive 2 35 20 = some (heapFive, false) := by
  refine ⟨by decide, ?_⟩
  exact (C9_absent_delete_noop 4 heapFive 2 35 20 0 [10, 20, 30] [10, 20, 30]
    (some 2) none (some 1) (by decide) (by decide) (by decide)).1

/-- The scan of `LeafNode.insert` at a key greater than every key present
runs to the end reporting no match. -/
lemma leafScan_all_lt (k : Int) :
    ∀ ks : List Int, (∀ x ∈ ks, x < k) → LeafNode.scan ks k = (ks.length, false)
  | [], _ => rfl
  | x :: xs, hlt => by
    have hx : x < k := hlt x (List.mem_cons_self x xs)
    have ih := leafScan_all_lt k xs (fun y hy => hlt y (List.mem_cons_of_mem x hy))
    simp [LeafNode.scan, ih, lt_asymm hx, hx.ne]

/-- `LeafNode.insert` at a key greater than every key present appends the
pair at the end. -/
lemma leafInsert_append (ks : List Int) (vs : List Int) (k : Int) (v : Int)
    (hlt : ∀ x ∈ ks, x < k) (hlen : ks.length = vs.length) :
    LeafNode.insert ks vs k v = (ks ++ [k], vs ++ [v], true) := by
  have hs := leafScan_all_lt k ks hlt
  have h3 : List.take ks.length vs = vs := by rw [hlen]; exact List.take_length vs
  have h4 : List.drop ks.length vs = [] := by rw [hlen]; exact List.drop_length vs
  simp [LeafNode.insert, hs, List.take_length, List.drop_length, h3, h4]

/-- Re-inserting a strictly ascending run of pairs one by one (the move loop
of `LeafNode.split`) appends them in order. -/
lemma leafFold_append :
    ∀ (l : List (Int × Int)) (a : List Int) (b : List Int),
      (l.map Prod.fst).Pairwise (· < ·) →
      (∀ x ∈ a, ∀ kv ∈ l, x < kv.1) →
      a.length = b.length →
      l.foldl LeafNode.moveStep (a, b)
        = (a ++ l.map Prod.fst, b ++ l.map Prod.snd)
  | [], a, b, _, _, _ => by simp
  | (k0, v0) :: rest, a, b, hpair, hlt, hlen => by
    have h1 : LeafNode.insert a b k0 v0 = (a ++ [k0], b ++ [v0], true) :=
      leafInsert_append a b k0 v0
        (fun x hx => hlt x hx (k0, v0) (List.mem_cons_self _ _)) hlen
    have hpair' : List.Pairwise (· < ·) (k0 :: rest.map Prod.fst) := by
      simpa using hpair
    have hp := List.pairwise_cons.1 hpair'
    have hk0 : ∀ kv ∈ rest, k0 < kv.1 := by
      intro kv hkv
      exact hp.1 kv.1 (List.mem_map_of_mem Prod.fst hkv)
    have ih := leafFold_append rest (a ++ [k0]) (b ++ [v0])
      (by simpa using hp.2)
      (by
        intro x hx kv hkv
        rcases List.mem_append.1 hx with hxa | hxk
        · exact hlt x hxa kv (List.mem_cons_of_mem _ hkv)
        · have : x = k0 := by simpa using hxk
          exact this ▸ hk0 kv hkv)
      (by simp [hlen])
    rw [List.foldl_cons, show LeafNode.moveStep (a, b) (k0, v0) = (a ++ [k0], b ++ [v0]) by
      simp [LeafNode.moveStep, h1], ih]
    simp [List.append_assoc]

/-- `LeafNode.split` on a strictly sorted leaf with parallel values: the
first `ceil(n/2)` pairs stay, the rest move — in order — to the new right
leaf, and the reported split key is the right leaf's first key. -/
lemma leafSplit_eq (ks : List Int) (vs : List Int)
    (hsort : ks.Chain' (· < ·)) (hlen : ks.length = vs.length) :
    LeafNode.split ks vs =
      (ks.take ((ks.length + 1) / 2), vs.take ((ks.length + 1) / 2),
       (ks.drop ((ks.length + 1) / 2)).getD 0 0,
       ks.drop ((ks.length + 1) / 2), vs.drop ((ks.length + 1) / 2)) := by
  have hkeep : (vs.length + 1) / 2 = (ks.length + 1) / 2 := by rw [hlen]
  have hlz : (ks.drop ((vs.length + 1) / 2)).length ≤ (vs.drop ((vs.length + 1) / 2)).length := by
    simp [hlen]
  have hlz' : (vs.drop ((vs.length + 1) / 2)).length ≤ (ks.drop ((vs.length + 1) / 2)).length := by
    simp [hlen]
  have hpz := List.map_fst_zip _ _ hlz
  have hsz := List.map_snd_zip _ _ hlz'
  have hfold := leafFold_append
    ((ks.drop ((vs.length + 1) / 2)).zip (vs.drop ((vs.length + 1) / 2))) [] []
    (by
      rw [hpz]
      exact List.chain'_iff_pairwise.1 (hsort.drop _))
    (by simp) rfl
  simp only [LeafNode.split]
  rw [hfold, hpz, hsz]
  simp [hkeep]

/-- C7: `LeafNode.split` on a leaf holding `n` (sorted, parallel) entries
keeps the first `ceil(n/2)` key/value pairs in the original leaf, moves the
remaining entries in order into the newly created right leaf (allocated at
the fresh id `h.length`, with empty parent), links the new leaf as the
original's `next` with the new leaf's `prev` pointing at the original and the
new leaf's `next` taking the old `next` (whose `prev` is redirected to the
new leaf), returns the first key of the right leaf as the split key, and
loses no entry: the two leaves' contents concatenate back to the original. -/
theorem C7_leaf_split (h : Heap) (lid : Nat) (ks : List Int) (vs : List Int)
    (p pr nx : Option Nat)
    (hnode : h.getN lid = some (.leaf ks vs p pr nx))
    (hsort : ks.Chain' (· < ·))
    (hlen : ks.length = vs.length)
    (hn : 2 ≤ ks.length)
    (hnx : ∀ nid, nx = some nid → nid < h.length ∧ nid ≠ lid) :
    (LeafNode.splitH h lid).2.2 = h.length ∧
    (ks.drop ((ks.length + 1) / 2)).head? = some (LeafNode.splitH h lid).2.1 ∧
    (LeafNode.splitH h lid).1.getN lid
      = some (.leaf (ks.take ((ks.length + 1) / 2)) (vs.take ((ks.length + 1) / 2))
          p pr (some h.length)) ∧
    (LeafNode.splitH h lid).1.getN h.length
      = some (.leaf (ks.drop ((ks.length + 1) / 2)) (vs.drop ((ks.length + 1) / 2))
          none (some lid) nx) ∧
    (ks.take ((ks.length + 1) / 2)).length = (ks.length + 1) / 2 ∧
    ks.take ((ks.length + 1) / 2) ++ ks.drop ((ks.length + 1) / 2) = ks ∧
    vs.take ((ks.length + 1) / 2) ++ vs.drop ((ks.length + 1) / 2) = vs ∧
    (∀ nid, nx = some nid →
      ∀ ks2 vs2 p2 pr2 nx2, h.getN nid = some (.leaf ks2 vs2 p2 pr2 nx2) →
        (LeafNode.splitH h lid).1.getN nid
          = some (.leaf ks2 vs2 p2 (some h.length) nx2)) := by
  have hlid : lid < h.length := by
    have hx : h.get? lid = some (.leaf ks vs p pr nx) := hnode
    exact (List.get?_eq_some.1 hx).1
  have hkeep_lt : (ks.length + 1) / 2 < ks.length := by omega
  have hhead : (ks.drop ((ks.length + 1) / 2)).head? =
      some ((ks.drop ((ks.length + 1) / 2)).getD 0 0) := by
    cases hd : ks.drop ((ks.length + 1) / 2) with
    | nil =>
      have := congrArg List.length hd
      simp at this
      omega
    | cons a t => simp [hd, List.getD]
  have hget_lid : ∀ (X R : NodeD), ((h.setN lid X) ++ [R]).get? lid = some X := by
    intro X R
    rw [List.get?_append (by simp [Heap.setN]; omega)]
    exact List.get?_set_eq_of_lt X (by simpa [Heap.setN] using hlid)
  have hget_new : ∀ (X R : NodeD), ((h.setN lid X) ++ [R]).get? h.length = some R := by
    intro X R
    rw [List.get?_append_right (by simp [Heap.setN])]
    simp [Heap.setN]
  simp only [LeafNode.splitH]
  rw [hnode]
  dsimp only
  rw [leafSplit_eq ks vs hsort hlen]
  cases hnxc : nx with
  | none =>
    dsimp only
    refine ⟨rfl, by simpa using hhead, ?_, ?_,
      by rw [List.length_take]; omega, List.take_append_drop _ _,
      List.take_append_drop _ _, ?_⟩
    · exact hget_lid _ _
    · exact hget_new _ _
    · intro nid hnid
      exact absurd hnid (by simp)
  | some nid =>
    obtain ⟨hnid_lt, hnid_ne⟩ := hnx nid hnxc
    have hmid : ∀ (X R : NodeD), ((h.setN lid X) ++ [R]).get? nid = h.get? nid := by
      intro X R
      rw [List.get?_append (by simp [Heap.setN]; omega)]
      exact List.get?_set_ne _ _ (fun e => hnid_ne e.symm)
    dsimp only
    cases hold : h.get? nid with
    | none =>
      simp only [Heap.getN, hmid, hold]
      refine ⟨by trivial, by simpa using hhead, ?_, ?_,
        by rw [List.length_take]; omega, List.take_append_drop _ _,
        List.take_append_drop _ _, ?_⟩
      · exact hget_lid _ _
      · exact hget_new _ _
      · intro nid' hnid' ks2 vs2 p2 pr2 nx2 hv
        cases hnid'
        have hv' : h.get? nid = some (NodeD.leaf ks2 vs2 p2 pr2 nx2) := hv
        rw [hv'] at hold
        cases hold
    | some oldnd =>
      cases oldnd with
      | internal ks2 cs2 p2 =>
        simp only [Heap.getN, hmid, hold]
        refine ⟨by trivial, by simpa using hhead, ?_, ?_,
          by rw [List.length_take]; omega, List.take_append_drop _ _,
          List.take_append_drop _ _, ?_⟩
        · exact hget_lid _ _
        · exact hget_new _ _
        · intro nid' hnid' ks3 vs3 p3 pr3 nx3 hv
          cases hnid'
          have hv' : h.get? nid = some (NodeD.leaf ks3 vs3 p3 pr3 nx3) := hv
          rw [hv'] at hold
          cases hold
      | leaf ks2 vs2 p2 pr2 nx2 =>
        simp only [Heap.getN, hmid, hold]
        have hbig : ∀ (X R : NodeD), ((h.setN lid X) ++ [R]).length = h.length + 1 := by
          intro X R
          simp [Heap.setN]
        refine ⟨by trivial, by simpa using hhead, ?_, ?_,
          by rw [List.length_take]; omega, List.take_append_drop _ _,
          List.take_append_drop _ _, ?_⟩
        · simp only [Heap.setN]
          rw [List.get?_set_ne _ _ hnid_ne]
          exact hget_lid _ _
        · simp only [Heap.setN]
          rw [List.get?_set_ne _ _ (by omega)]
          exact hget_new _ _
        · intro nid' hnid' ks3 vs3 p3 pr3 nx3 hv
          cases hnid'
          have hv' : h.get? nid = some (NodeD.leaf ks3 vs3 p3 pr3 nx3) := hv
          rw [hv'] at hold
          cases hold
          simp only [Heap.setN]
          rw [List.get?_set_eq_of_lt]
          simp only [List.length_append, List.length_set, List.length_singleton]
          omega

/-- Witness for C7: splitting a leaf holding the four sorted entries
(1,10),(2,20),(3,30),(4,40) keeps (1,10),(2,20), moves (3,30),(4,40) to the
new leaf id 1 chained after the original, and reports split key 3. -/
theorem C7_witness :
    (LeafNode.splitH [NodeD.leaf [1, 2, 3, 4] [10, 20, 30, 40] none none none] 0).2.2 = 1 ∧
    (LeafNode.splitH [NodeD.leaf [1, 2, 3, 4] [10, 20, 30, 40] none none none] 0).1.getN 0
      = some (.leaf [1, 2] [10, 20] none none (some 1)) ∧
    (LeafNode.splitH [NodeD.leaf [1, 2, 3, 4] [10, 20, 30, 40] none none none] 0).1.getN 1
      = some (.leaf [3, 4] [30, 40] none (some 0) none) ∧
    ([3, 4] : List Int).head?
      = some (LeafNode.splitH [NodeD.leaf [1, 2, 3, 4] [10, 20, 30, 40] none none none] 0).2.1 := by
  have H := C7_leaf_split [NodeD.leaf [1, 2, 3, 4] [10, 20, 30, 40] none none none] 0
    [1, 2, 3, 4] [10, 20, 30, 40] none none none rfl
    (by simp [List.chain'_cons, List.chain'_singleton]) (by decide) (by decide)
    (by simp)
  exact ⟨H.1, by simpa using H.2.2.1, by simpa using H.2.2.2.1, by simpa using H.2.1⟩

/-- `internalCountsLt` distributes over list append. -/
lemma countsLtList_append (order : Nat) :
    ∀ l1 l2 : List BTree, BTree.internalCountsLtList order (l1 ++ l2)
      = (BTree.internalCountsLtList order l1 && BTree.internalCountsLtList order l2)
  | [], l2 => by simp [BTree.internalCountsLtList]
  | c :: l1, l2 => by
    simp [BTree.internalCountsLtList, countsLtList_append order l1 l2, Bool.and_assoc]

/-- Taking and dropping preserve `internalCountsLtList`. -/
lemma countsLtList_take_drop (order : Nat) (n : Nat) (l : List BTree)
    (hl : BTree.internalCountsLtList order l = true) :
    BTree.internalCountsLtList order (l.take n) = true ∧
    BTree.internalCountsLtList order (l.drop n) = true := by
  have h := countsLtList_append order (l.take n) (l.drop n)
  rw [List.take_append_drop, hl] at h
  have h2 := (Bool.and_eq_true _ _).mp h.symm
  exact ⟨h2.1, h2.2⟩

/-- The scan of `insertKeyAndChild` never runs past the separators. -/
lemma insertPos_le (k : Int) :
    ∀ seps : List Int, InternalNode.insertPos seps k ≤ seps.length
  | [] => by simp [InternalNode.insertPos]
  | s :: seps => by
    have ih := insertPos_le k seps
    by_cases hs : k > s <;> simp [InternalNode.insertPos, hs] <;> omega

/-- `insertKeyAndChild` grows the separator list by exactly one. -/
lemma insertKeyAndChild_len (seps : List Int) (cs : List BTree) (k : Int) (c : BTree) :
    (InternalNode.insertKeyAndChild seps cs k c).1.length = seps.length + 1 := by
  have hle := insertPos_le k seps
  by_cases he : seps.isEmpty
  · simp [InternalNode.insertKeyAndChild, he]
  · simp only [InternalNode.insertKeyAndChild, he, Bool.false_eq_true, if_false,
      List.length_append, List.length_take, List.length_cons, List.length_drop]
    omega

/-- `insertKeyAndChild` preserves `internalCountsLtList` of the children when
the inserted child satisfies the bound. -/
lemma insertKeyAndChild_countsLt (order : Nat) (seps : List Int) (cs : List BTree)
    (k : Int) (c : BTree)
    (hcs : BTree.internalCountsLtList order cs = true)
    (hc : c.internalCountsLt order = true) :
    BTree.internalCountsLtList order (InternalNode.insertKeyAndChild seps cs k c).2 = true := by
  obtain ⟨ht, hd⟩ := countsLtList_take_drop order
    (InternalNode.insertPos seps k + 1) cs hcs
  by_cases he : seps.isEmpty
  · simp [InternalNode.insertKeyAndChild, he, countsLtList_append,
      BTree.internalCountsLtList, hcs, hc]
  · simp [InternalNode.insertKeyAndChild, he, countsLtList_append,
      BTree.internalCountsLtList, ht, hd, hc]

mutual
/-- The insertion core keeps every internal separator count below `order`
(splits fire as soon as a count reaches `order`), and so does any node it
promotes. -/
theorem insertAux_countsLt (order : Nat) (h2 : 2 ≤ order) (k : Int) (v : Int) :
    ∀ t : BTree, t.internalCountsLt order = true →
      ((BPlusTree.insertAux order k v t).1.internalCountsLt order = true ∧
        ∀ sk r, (BPlusTree.insertAux order k v t).2 = some (sk, r) →
          r.internalCountsLt order = true)
  | .leaf ks vs, _ => by
    simp only [BPlusTree.insertAux]
    by_cases hle : (LeafNode.insert ks vs k v).1.length ≤ order
    · simp [hle, BTree.internalCountsLt]
    · simp only [hle, if_false]
      refine ⟨by simp [BTree.internalCountsLt], ?_⟩
      intro sk r hr
      cases hr
      simp [BTree.internalCountsLt]
  | .internal seps cs, hc => by
    have hc' : seps.length < order ∧ BTree.internalCountsLtList order cs = true := by
      have := hc
      simp only [BTree.internalCountsLt, Bool.and_eq_true, decide_eq_true_eq] at this
      exact this
    obtain ⟨hslen, hcs⟩ := hc'
    obtain ⟨hseq, hlist, hpromo⟩ := insertChildren_countsLt order h2 k v seps cs hcs
    simp only [BPlusTree.insertAux]
    cases hd2 : (BPlusTree.insertChildren order k v seps cs).2 with
    | none =>
      simp only [hd2]
      refine ⟨?_, by intro sk r hr; cases hr⟩
      simp [BTree.internalCountsLt, hseq, hslen, hlist]
    | some skr =>
      obtain ⟨sk, right⟩ := skr
      have hright := hpromo sk right hd2
      simp only [hd2]
      have hplen : (InternalNode.insertKeyAndChild
          (BPlusTree.insertChildren order k v seps cs).1.1
          (BPlusTree.insertChildren order k v seps cs).1.2 sk right).1.length
          = seps.length + 1 := by
        rw [hseq] at *
        exact insertKeyAndChild_len _ _ _ _
      have hpcs : BTree.internalCountsLtList order (InternalNode.insertKeyAndChild
          (BPlusTree.insertChildren order k v seps cs).1.1
          (BPlusTree.insertChildren order k v seps cs).1.2 sk right).2 = true :=
        insertKeyAndChild_countsLt order _ _ sk right hlist hright
      by_cases hov : (InternalNode.insertKeyAndChild
          (BPlusTree.insertChildren order k v seps cs).1.1
          (BPlusTree.insertChildren order k v seps cs).1.2 sk right).1.length ≥ order
      · simp only [hov, if_true]
        have hexact : (InternalNode.insertKeyAndChild
            (BPlusTree.insertChildren order k v seps cs).1.1
            (BPlusTree.insertChildren order k v seps cs).1.2 sk right).1.length = order := by
          omega
        obtain ⟨hqt, hqd⟩ := countsLtList_take_drop order
          (((InternalNode.insertKeyAndChild
            (BPlusTree.insertChildren order k v seps cs).1.1
            (BPlusTree.insertChildren order k v seps cs).1.2 sk right).1.length + 2) / 2)
          _ hpcs
        constructor
        · simp only [InternalNode.split, BTree.internalCountsLt, Bool.and_eq_true,
            decide_eq_true_eq]
          refine ⟨?_, hqt⟩
          rw [List.length_take]
          omega
        · intro sk' r' hr'
          simp only [InternalNode.split] at hr'
          cases hr'
          simp only [BTree.internalCountsLt, Bool.and_eq_true, decide_eq_true_eq]
          refine ⟨?_, hqd⟩
          rw [List.length_drop]
          omega
      · simp only [hov, if_false]
        refine ⟨?_, by intro sk' r' hr'; cases hr'⟩
        simp only [BTree.internalCountsLt, Bool.and_eq_true, decide_eq_true_eq]
        exact ⟨by omega, hpcs⟩

/-- The descent step preserves the separator list, keeps every child's
internal counts below `order`, and any promoted node satisfies the bound. -/
theorem insertChildren_countsLt (order : Nat) (h2 : 2 ≤ order) (k : Int) (v : Int) :
    ∀ (seps : List Int) (cs : List BTree),
      BTree.internalCountsLtList order cs = true →
      ((BPlusTree.insertChildren order k v seps cs).1.1 = seps ∧
        BTree.internalCountsLtList order
          (BPlusTree.insertChildren order k v seps cs).1.2 = true ∧
        ∀ sk r, (BPlusTree.insertChildren order k v seps cs).2 = some (sk, r) →
          r.internalCountsLt order = true)
  | seps, [], h => by
    simp [BPlusTree.insertChildren, BTree.internalCountsLtList, h]
  | [], c :: cs, h => by
    have hh : c.internalCountsLt order = true ∧
        BTree.internalCountsLtList order cs = true := by
      have := h
      simp only [BTree.internalCountsLtList, Bool.and_eq_true] at this
      exact this
    obtain ⟨hch, hcs⟩ := hh
    obtain ⟨ha, hb⟩ := insertAux_countsLt order h2 k v c hch
    simp only [BPlusTree.insertChildren]
    refine ⟨by trivial, ?_, hb⟩
    simp [BTree.internalCountsLtList, ha, hcs]
  | s :: seps, c :: cs, h => by
    have hh : c.internalCountsLt order = true ∧
        BTree.internalCountsLtList order cs = true := by
      have := h
      simp only [BTree.internalCountsLtList, Bool.and_eq_true] at this
      exact this
    obtain ⟨hch, hcs⟩ := hh
    by_cases hs : s > k
    · obtain ⟨ha, hb⟩ := insertAux_countsLt order h2 k v c hch
      simp only [BPlusTree.insertChildren, hs, if_true]
      refine ⟨by trivial, ?_, hb⟩
      simp [BTree.internalCountsLtList, ha, hcs]
    · obtain ⟨hseq, hlist, hpromo⟩ := insertChildren_countsLt order h2 k v seps cs hcs
      simp only [BPlusTree.insertChildren, hs, if_false]
      refine ⟨by rw [hseq], ?_, hpromo⟩
      simp [BTree.internalCountsLtList, hch, hlist]
end

/-- C5 (amended): during insert's upward split propagation an internal node
is split as soon as its separator key count *reaches* `order` (the source
loop runs `while (internalNode.getKeyCount() >= this.order)`), so a node
holding exactly `order` separators after receiving a promoted key is split —
and consequently, after any insert sequence into a freshly constructed tree,
every internal node holds fewer than `order` separator keys. -/
theorem C5_internal_counts_lt_order (order : Nat) (h3 : 3 ≤ order)
    (ops : List (Int × Int)) :
    (BPlusTree.insertAll order BPlusTree.empty ops).internalCountsLt order = true := by
  have h2 : 2 ≤ order := by omega
  have hgen : ∀ (l : List (Int × Int)) (t : BTree),
      t.internalCountsLt order = true →
      (BPlusTree.insertAll order t l).internalCountsLt order = true := by
    intro l
    induction l with
    | nil => intro t ht; exact ht
    | cons kv rest ih =>
      intro t ht
      have hstep : (BPlusTree.insert order t kv.1 kv.2).internalCountsLt order = true := by
        obtain ⟨ha, hb⟩ := insertAux_countsLt order h2 kv.1 kv.2 t ht
        unfold BPlusTree.insert
        cases hr : BPlusTree.insertAux order kv.1 kv.2 t with
        | mk t' promo =>
          cases promo with
          | none => simpa [hr] using (by rw [hr] at ha; exact ha)
          | some skr =>
            obtain ⟨sk, r⟩ := skr
            have hr' := hb sk r (by rw [hr])
            have ha' : t'.internalCountsLt order = true := by rw [hr] at ha; exact ha
            simp [BTree.internalCountsLt, BTree.internalCountsLtList, ha', hr']
            omega
      exact ih (BPlusTree.insert order t kv.1 kv.2) hstep
  exact hgen ops BPlusTree.empty (by simp [BPlusTree.empty, BTree.internalCountsLt])

/-- Witness for C5's amended theorem: order 3, inserting keys 1..8 from a
fresh tree leaves every internal node with fewer than 3 separators. -/
theorem C5_internal_counts_lt_order_witness :
    (3 : Nat) ≤ 3 ∧
    (BPlusTree.insertAll 3 BPlusTree.empty opsEight).internalCountsLt 3 = true :=
  ⟨by decide, C5_internal_counts_lt_order 3 (by decide) opsEight⟩

/-! ### Model-level association list lemmas -/

lemma modelLookup_nil (k : Int) : modelLookup [] k = none := rfl

lemma modelLookup_append (l1 l2 : List (Int × Int)) (k : Int) :
    modelLookup (l1 ++ l2) k = (modelLookup l1 k).or (modelLookup l2 k) := by
  simp only [modelLookup, List.find?_append]
  cases List.find? (fun kv => kv.1 == k) l1 <;> simp

lemma modelLookup_none_of (l : List (Int × Int)) (k : Int)
    (h : ∀ p ∈ l, p.1 ≠ k) : modelLookup l k = none := by
  have hf : List.find? (fun kv => kv.1 == k) l = none :=
    List.find?_eq_none.2 (by intro x hx; simp [h x hx])
  simp [modelLookup, hf]

lemma modelInsert_append_left (l1 l2 : List (Int × Int)) (k : Int) (v : Int)
    (h : ∀ p ∈ l1, p.1 < k) :
    modelInsert (l1 ++ l2) k v = l1 ++ modelInsert l2 k v := by
  induction l1 with
  | nil => rfl
  | cons a l1 ih =>
    have ha : a.1 < k := h a (List.mem_cons_self a l1)
    have h1 : ¬ k < a.1 := not_lt.2 ha.le
    have h2 : ¬ k = a.1 := fun e => absurd (e ▸ ha) (lt_irrefl k)
    simp only [List.cons_append, modelInsert, if_neg h1, if_neg h2, List.append_eq]
    rw [ih (fun p hp => h p (List.mem_cons_of_mem a hp))]

lemma modelInsert_all_gt (l : List (Int × Int)) (k : Int) (v : Int)
    (h : ∀ p ∈ l, k < p.1) :
    modelInsert l k v = (k, v) :: l := by
  cases l with
  | nil => rfl
  | cons a l =>
    have ha : k < a.1 := h a (List.mem_cons_self a l)
    simp only [modelInsert, if_pos ha]

lemma modelInsert_append_right (l1 l2 : List (Int × Int)) (k : Int) (v : Int)
    (h : ∀ p ∈ l2, k < p.1) :
    modelInsert (l1 ++ l2) k v = modelInsert l1 k v ++ l2 := by
  induction l1 with
  | nil =>
    simp [modelInsert_all_gt l2 k v h, modelInsert]
  | cons a l1 ih =>
    by_cases h1 : k < a.1
    · simp [modelInsert, h1]
    · by_cases h2 : k = a.1
      · simp [modelInsert, h1, h2]
      · simp only [List.cons_append, modelInsert, if_neg h1, if_neg h2, List.append_eq]
        rw [ih]

lemma modelLookup_insert_self (l : List (Int × Int)) (k : Int) (v : Int) :
    modelLookup (modelInsert l k v) k = some v := by
  induction l with
  | nil => simp [modelInsert, modelLookup]
  | cons a l ih =>
    by_cases h1 : k < a.1
    · simp [modelInsert, h1, modelLookup]
    · by_cases h2 : k = a.1
      · simp [modelInsert, h1, h2, modelLookup]
      · have hne : (a.1 == k) = false := by
          simp
          exact fun e => h2 e.symm
        simp only [modelInsert, if_neg h1, if_neg h2]
        simp only [modelLookup, List.find?, hne] at ih ⊢
        exact ih

lemma modelLookup_insert_other (l : List (Int × Int)) (k k' : Int) (v : Int)
    (hne : k' ≠ k) :
    modelLookup (modelInsert l k v) k' = modelLookup l k' := by
  have hkk : (k == k') = false := by
    simp
    exact fun e => hne e.symm
  induction l with
  | nil => simp [modelInsert, modelLookup, List.find?, hkk]
  | cons a l ih =>
    by_cases h1 : k < a.1
    · simp [modelInsert, h1, modelLookup, List.find?, hkk]
    · by_cases h2 : k = a.1
      · have ha' : (a.1 == k') = false := by rw [← h2]; exact hkk
        simp [modelInsert, h1, h2, modelLookup, List.find?, hkk, ha']
      · simp only [modelInsert, if_neg h1, if_neg h2]
        by_cases h3 : a.1 = k'
        · simp [modelLookup, List.find?, h3]
        · have h3' : (a.1 == k') = false := by simp [h3]
          simp only [modelLookup, List.find?, h3'] at ih ⊢
          exact ih

lemma lastInserted_cons (x : Int × Int) (ops : List (Int × Int)) (k : Int) :
    lastInserted (x :: ops) k
      = match lastInserted ops k with
        | some v => some v
        | none => if x.1 = k then some x.2 else none := by
  simp only [lastInserted, List.reverse_cons, List.find?_append]
  cases List.find? (fun kv => kv.1 == k) ops.reverse with
  | none =>
    by_cases hx : x.1 = k
    · simp [List.find?, hx]
    · have hx' : (x.1 == k) = false := by simp [hx]
      simp [List.find?, hx', hx]
  | some a => simp

lemma lookup_foldl_modelInsert (k : Int) :
    ∀ (ops : List (Int × Int)) (L : List (Int × Int)),
      modelLookup (ops.foldl (fun l kv => modelInsert l kv.1 kv.2) L) k
        = match lastInserted ops k with
          | some v => some v
          | none => modelLookup L k
  | [], L => by simp [lastInserted]
  | x :: ops, L => by
    rw [List.foldl_cons, lookup_foldl_modelInsert k ops, lastInserted_cons]
    cases lastInserted ops k with
    | some v => simp
    | none =>
      by_cases hx : x.1 = k
      · simp only [hx, if_pos rfl]
        exact modelLookup_insert_self L k x.2
      · simp only [hx, if_neg hx]
        exact modelLookup_insert_other L x.1 k x.2 (fun e => hx e.symm)

/-! ### Leaf-level correctness lemmas -/

/-- Commutation of `LeafNode.insert` with a head entry the scan walks past. -/
lemma leafInsert_cons (k0 : Int) (v0 : Int) (ks : List Int) (vs : List Int)
    (k : Int) (v : Int) (h1 : ¬ k0 > k) (h2 : (k0 == k) = false) :
    LeafNode.insert (k0 :: ks) (v0 :: vs) k v
      = (k0 :: (LeafNode.insert ks vs k v).1, v0 :: (LeafNode.insert ks vs k v).2.1,
         (LeafNode.insert ks vs k v).2.2) := by
  simp only [LeafNode.insert, LeafNode.scan, h1, if_false, h2]
  cases hsc : LeafNode.scan ks k with
  | mk i flag =>
    cases flag with
    | true => simp [List.set_cons_succ]
    | false => simp [List.take_succ_cons, List.drop_succ_cons]

/-- `LeafNode.insert` on a sorted leaf with parallel values: sortedness and
parallelism are preserved, the records become the model-level insertion, and
every key in the result was present before or is the inserted key. -/
lemma leafInsert_model (k : Int) (v : Int) :
    ∀ (ks : List Int) (vs : List Int), ks.Chain' (· < ·) → ks.length = vs.length →
      ((LeafNode.insert ks vs k v).1.Chain' (· < ·) ∧
       (LeafNode.insert ks vs k v).1.length = (LeafNode.insert ks vs k v).2.1.length ∧
       (LeafNode.insert ks vs k v).1.zip (LeafNode.insert ks vs k v).2.1
         = modelInsert (ks.zip vs) k v ∧
       (∀ x ∈ (LeafNode.insert ks vs k v).1, x ∈ ks ∨ x = k))
  | [], vs, _, hlen => by
    have : vs = [] := List.length_eq_zero.1 hlen.symm
    subst this
    refine ⟨by simp [LeafNode.insert, LeafNode.scan], rfl, ?_, ?_⟩
    · simp [LeafNode.insert, LeafNode.scan, modelInsert]
    · simp [LeafNode.insert, LeafNode.scan]
  | k0 :: ks, vs, hsort, hlen => by
    cases vs with
    | nil => simp at hlen
    | cons v0 vs =>
      have hlen' : ks.length = vs.length := by simpa using hlen
      have hsort' : ks.Chain' (· < ·) := (List.chain'_cons'.1 hsort).2
      have hk0lt : ∀ y ∈ ks, k0 < y := by
        intro y hy
        have hp := List.chain'_iff_pairwise.1 hsort
        exact (List.pairwise_cons.1 hp).1 y hy
      by_cases hgt : k0 > k
      · have hins : LeafNode.insert (k0 :: ks) (v0 :: vs) k v
            = (k :: k0 :: ks, v :: v0 :: vs, true) := by
          simp [LeafNode.insert, LeafNode.scan, hgt]
        rw [hins]
        have hA : List.Chain' (· < ·) (k :: k0 :: ks) := by
          refine List.chain'_cons'.2 ⟨?_, hsort⟩
          intro y hy
          simp at hy
          show k < y
          omega
        have hB : (k :: k0 :: ks).length = (v :: v0 :: vs).length := by simp [hlen']
        have hC : (k :: k0 :: ks).zip (v :: v0 :: vs)
            = modelInsert ((k0 :: ks).zip (v0 :: vs)) k v := by
          simp only [List.zip_cons_cons, modelInsert, if_pos hgt]
          rfl
        refine ⟨hA, hB, hC, ?_⟩
        intro x hx
        simp at hx
        rcases hx with hc | hc | hc
        · exact Or.inr hc
        · exact Or.inl (by simp [hc])
        · exact Or.inl (by simp [hc])
      · by_cases heq : (k0 == k) = true
        · have hk0k : k0 = k := by simpa using heq
          subst hk0k
          have hins : LeafNode.insert (k0 :: ks) (v0 :: vs) k0 v
              = (k0 :: ks, v :: vs, false) := by
            simp [LeafNode.insert, LeafNode.scan, hgt]
          rw [hins]
          have hB : (k0 :: ks).length = (v :: vs).length := by simp [hlen']
          have hC : (k0 :: ks).zip (v :: vs)
              = modelInsert ((k0 :: ks).zip (v0 :: vs)) k0 v := by
            have h1 : ¬ k0 < k0 := lt_irrefl k0
            simp only [List.zip_cons_cons, modelInsert, if_neg h1, if_pos rfl]
            rfl
          refine ⟨hsort, hB, hC, ?_⟩
          intro x hx
          simp at hx
          rcases hx with hc | hc
          · exact Or.inl (by simp [hc])
          · exact Or.inl (by simp [hc])
        · have heqf : (k0 == k) = false := by simpa using heq
          have hk0k : k0 < k := by
            have hne : ¬ k0 = k := by simpa using heq
            omega
          obtain ⟨ih1, ih2, ih3, ih4⟩ := leafInsert_model k v ks vs hsort' hlen'
          rw [leafInsert_cons k0 v0 ks vs k v hgt heqf]
          have hA : List.Chain' (· < ·) (k0 :: (LeafNode.insert ks vs k v).1) := by
            refine List.chain'_cons'.2 ⟨?_, ih1⟩
            intro y hy
            have hy' : y ∈ (LeafNode.insert ks vs k v).1 := by
              cases hh : (LeafNode.insert ks vs k v).1 with
              | nil => simp [hh] at hy
              | cons a t =>
                simp [hh] at hy
                simp [hh, hy]
            rcases ih4 y hy' with hc | hc
            · exact hk0lt y hc
            · show k0 < y
              omega
          have hC : (k0 :: (LeafNode.insert ks vs k v).1).zip
                (v0 :: (LeafNode.insert ks vs k v).2.1)
              = modelInsert ((k0 :: ks).zip (v0 :: vs)) k v := by
            have hnlt : ¬ k < k0 := by omega
            have hneq : ¬ k = k0 := by omega
            simp only [List.zip_cons_cons, ih3, modelInsert, if_neg hnlt, if_neg hneq]
            rfl
          refine ⟨hA, by simpa using ih2, hC, ?_⟩
          intro x hx
          simp at hx
          rcases hx with hc | hc
          · exact Or.inl (by simp [hc])
          · rcases ih4 x hc with hc2 | hc2
            · exact Or.inl (by simp [hc2])
            · exact Or.inr hc2

/-- `LeafNode.search` agrees with the model lookup on the zipped records. -/
lemma leafSearch_eq_lookup (k : Int) :
    ∀ (ks : List Int) (vs : List Int), ks.length = vs.length →
      LeafNode.search ks vs k = modelLookup (ks.zip vs) k
  | [], vs, hlen => by
    have : vs = [] := List.length_eq_zero.1 hlen.symm
    subst this
    rfl
  | k0 :: ks, vs, hlen => by
    cases vs with
    | nil => simp at hlen
    | cons v0 vs =>
      have hlen' : ks.length = vs.length := by simpa using hlen
      have ih := leafSearch_eq_lookup k ks vs hlen'
      by_cases heq : (k0 == k) = true
      · simp [LeafNode.search, List.findIdx?_cons, heq, modelLookup, List.find?]
      · have heqf : (k0 == k) = false := by simpa using heq
        simp only [LeafNode.search, List.findIdx?_cons, heqf, Bool.false_eq_true,
          if_false, List.findIdx?_succ, List.zip_cons_cons]
        simp only [modelLookup, List.find?, heqf]
        simp only [LeafNode.search, modelLookup] at ih
        cases hidx : List.findIdx? (fun x => x == k) ks with
        | none => simp [hidx] at ih ⊢; exact ih
        | some i =>
          simp only [hidx] at ih
          simp [hidx]
          simpa using ih

/-! ### Window bounds of the records of a well-formed tree -/

mutual
/-- Every record of a well-formed tree lies inside its window. -/
theorem toList_bounds (order : Nat) :
    ∀ (t : BTree) (lo hi : Option Int), WF order lo hi t →
      ∀ p ∈ t.toList, loLE lo p.1 ∧ hiGT hi p.1
  | .leaf ks vs, lo, hi, hwf, p, hp => by
    cases hwf with
    | leaf hsort hlen hbound =>
      obtain ⟨a, b⟩ := p
      have hk : a ∈ ks := (List.of_mem_zip (by exact hp)).1
      exact hbound a hk
  | .internal seps cs, lo, hi, hwf, p, hp => by
    cases hwf with
    | internal hs => exact toListChildren_bounds order seps cs lo hi hs p hp

/-- Every record under a separator/child chain lies inside the chain's
window. -/
theorem toListChildren_bounds (order : Nat) :
    ∀ (seps : List Int) (cs : List BTree) (lo hi : Option Int),
      WFs order lo hi seps cs →
      ∀ p ∈ BTree.toListChildren cs, loLE lo p.1 ∧ hiGT hi p.1
  | _, [], _, _, hwfs, _, _ => by cases hwfs
  | [], c :: cs', lo, hi, hwfs, p, hp => by
    cases hwfs with
    | single hc =>
      simp only [BTree.toListChildren, List.append_nil] at hp
      exact toList_bounds order c lo hi hc p hp
  | s :: seps', c :: cs', lo, hi, hwfs, p, hp => by
    cases hwfs with
    | cons hlo hhi hc hrest =>
      rw [show BTree.toListChildren (c :: cs')
          = c.toList ++ BTree.toListChildren cs' from rfl] at hp
      rcases List.mem_append.1 hp with hp1 | hp2
      · obtain ⟨h1, h2⟩ := toList_bounds order c lo (some s) hc p hp1
        refine ⟨h1, ?_⟩
        intro a ha
        have hps : p.1 < s := h2 s rfl
        have hsa : s < a := hhi a ha
        omega
      · obtain ⟨h1, h2⟩ := toListChildren_bounds order seps' cs' (some s) hi hrest p hp2
        refine ⟨?_, h2⟩
        intro a ha
        have h3 : s ≤ p.1 := h1 s rfl
        have h4 : a < s := hlo a ha
        omega
end

/-! ### Search agrees with the model lookup -/

mutual
/-- `BPlusTree.search` on a well-formed tree computes the model lookup over
the tree's records, for any key inside the window. -/
theorem search_toList (order : Nat) (k : Int) :
    ∀ (t : BTree) (lo hi : Option Int), WF order lo hi t →
      loLE lo k → hiGT hi k →
      BPlusTree.search t k = modelLookup t.toList k
  | .leaf ks vs, lo, hi, hwf, _, _ => by
    cases hwf with
    | leaf hsort hlen hbound =>
      exact leafSearch_eq_lookup k ks vs hlen
  | .internal seps cs, lo, hi, hwf, hlo, hhi => by
    cases hwf with
    | internal hs => exact searchChildren_toList order k seps cs lo hi hs hlo hhi

/-- The descent scan agrees with the model lookup over the chain's records. -/
theorem searchChildren_toList (order : Nat) (k : Int) :
    ∀ (seps : List Int) (cs : List BTree) (lo hi : Option Int),
      WFs order lo hi seps cs → loLE lo k → hiGT hi k →
      BPlusTree.searchChildren seps cs k = modelLookup (BTree.toListChildren cs) k
  | _, [], _, _, hwfs, _, _ => by cases hwfs
  | [], c :: cs', lo, hi, hwfs, hlo, hhi => by
    cases hwfs with
    | single hc =>
      simp only [BPlusTree.searchChildren, BTree.toListChildren, List.append_nil]
      exact search_toList order k c lo hi hc hlo hhi
  | s :: seps', c :: cs', lo, hi, hwfs, hlo, hhi => by
    cases hwfs with
    | cons hslo hshi hc hrest =>
      rw [show BTree.toListChildren (c :: cs')
          = c.toList ++ BTree.toListChildren cs' from rfl]
      rw [modelLookup_append]
      by_cases hgt : s > k
      · have hleft := search_toList order k c lo (some s) hc hlo
          (by intro a ha; cases ha; omega)
        have hnone : modelLookup (BTree.toListChildren cs') k = none := by
          apply modelLookup_none_of
          intro p hp
          have := (toListChildren_bounds order seps' cs' (some s) hi hrest p hp).1
          have h3 : s ≤ p.1 := this s rfl
          omega
        simp only [BPlusTree.searchChildren, hgt, if_true, hnone, hleft]
        cases modelLookup c.toList k <;> simp
      · have hright := searchChildren_toList order k seps' cs' (some s) hi hrest
          (by intro a ha; cases ha; omega) hhi
        have hnone : modelLookup c.toList k = none := by
          apply modelLookup_none_of
          intro p hp
          have := (toList_bounds order c lo (some s) hc p hp).2
          have h3 : p.1 < s := this s rfl
          omega
        simp only [BPlusTree.searchChildren, hgt, if_false, hnone, hright,
          Option.none_or]
end

/-! ### Structural lemmas about separator/child chains -/

/-- An internal chain has one more child than separators. -/
theorem WFs_length (order : Nat) :
    ∀ (seps : List Int) (cs : List BTree) (lo hi : Option Int),
      WFs order lo hi seps cs → cs.length = seps.length + 1
  | _, [], _, _, hwfs => by cases hwfs
  | [], c :: cs', _, _, hwfs => by cases hwfs with
    | single hc => rfl
  | s :: seps', c :: cs', lo, hi, hwfs => by
    cases hwfs with
    | cons hslo hshi hc hrest =>
      have := WFs_length order seps' cs' (some s) hi hrest
      simp [this]

/-- `insertKeyAndChild` grows the child list by exactly one. -/
lemma insertKeyAndChild_len2 (seps : List Int) (cs : List BTree) (k : Int) (c : BTree) :
    (InternalNode.insertKeyAndChild seps cs k c).2.length = cs.length + 1 := by
  by_cases he : seps.isEmpty
  · simp [InternalNode.insertKeyAndChild, he]
  · simp only [InternalNode.insertKeyAndChild, he, Bool.false_eq_true, if_false,
      List.length_append, List.length_take, List.length_cons, List.length_drop]
    omega

/-- Commutation of `insertKeyAndChild` with a head separator smaller than the
inserted key (the scan walks past it). -/
lemma insertKeyAndChild_cons (s sk : Int) (seps : List Int) (c r : BTree)
    (cs : List BTree) (hsk : s < sk) (hlen : cs.length = seps.length + 1) :
    InternalNode.insertKeyAndChild (s :: seps) (c :: cs) sk r
      = (s :: (InternalNode.insertKeyAndChild seps cs sk r).1,
         c :: (InternalNode.insertKeyAndChild seps cs sk r).2) := by
  cases seps with
  | nil =>
    have hcs : ∃ c1, cs = [c1] := by
      cases cs with
      | nil => simp at hlen
      | cons c1 t =>
        cases t with
        | nil => exact ⟨c1, rfl⟩
        | cons _ _ => simp at hlen
    obtain ⟨c1, rfl⟩ := hcs
    simp [InternalNode.insertKeyAndChild, InternalNode.insertPos, hsk]
  | cons s2 seps2 =>
    simp only [InternalNode.insertKeyAndChild, List.isEmpty_cons, Bool.false_eq_true,
      if_false, InternalNode.insertPos, if_pos hsk]
    by_cases h2 : sk > s2 <;>
      simp [h2, List.take_succ_cons, List.drop_succ_cons]

/-- Splitting a chain at a separator: both halves are well-formed around the
promoted separator, which lies strictly inside the window, and no record is
lost. -/
theorem WFs_split (order : Nat) :
    ∀ (m : Nat) (seps : List Int) (cs : List BTree) (lo hi : Option Int),
      WFs order lo hi seps cs → 1 ≤ m → m ≤ seps.length →
      (WFs order lo (some (seps.getD (m-1) 0)) (seps.take (m-1)) (cs.take m) ∧
       WFs order (some (seps.getD (m-1) 0)) hi (seps.drop m) (cs.drop m) ∧
       loLT lo (seps.getD (m-1) 0) ∧ hiGT hi (seps.getD (m-1) 0) ∧
       BTree.toListChildren (cs.take m) ++ BTree.toListChildren (cs.drop m)
         = BTree.toListChildren cs)
  | _, _, [], _, _, hwfs, _, _ => by cases hwfs
  | m, [], c :: cs', _, _, hwfs, hm1, hm2 => by simp at hm2; omega
  | 0, s :: seps', c :: cs', _, _, hwfs, hm1, hm2 => by omega
  | 1, s :: seps', c :: cs', lo, hi, hwfs, _, _ => by
    cases hwfs with
    | cons hslo hshi hc hrest =>
      refine ⟨?_, ?_, ?_, ?_, ?_⟩
      · simpa using WFs.single hc
      · simpa using hrest
      · simpa using hslo
      · simpa using hshi
      · simp [BTree.toListChildren]
  | m + 2, s :: seps', c :: cs', lo, hi, hwfs, _, hm2 => by
    cases hwfs with
    | cons hslo hshi hc hrest =>
      have hm2' : m + 1 ≤ seps'.length := by simpa using hm2
      obtain ⟨hL, hR, hLT, hGT, hT⟩ :=
        WFs_split order (m + 1) seps' cs' (some s) hi hrest (by omega) hm2'
      have hget : (s :: seps').getD (m + 2 - 1) 0 = seps'.getD (m + 1 - 1) 0 := by
        simp
      refine ⟨?_, ?_, ?_, ?_, ?_⟩
      · rw [hget]
        rw [show (s :: seps').take (m + 2 - 1) = s :: seps'.take (m + 1 - 1) from by simp,
          show (c :: cs').take (m + 2) = c :: cs'.take (m + 1) from by simp]
        exact WFs.cons hslo (by intro a ha; cases ha; exact hLT s rfl) hc hL
      · rw [hget]
        rw [show (s :: seps').drop (m + 2) = seps'.drop (m + 1) from by simp,
          show (c :: cs').drop (m + 2) = cs'.drop (m + 1) from by simp]
        exact hR
      · rw [hget]
        intro a ha
        have h1 : a < s := hslo a ha
        have h2 : s < seps'.getD (m + 1 - 1) 0 := hLT s rfl
        omega
      · rw [hget]
        exact hGT
      · rw [show (c :: cs').take (m + 2) = c :: cs'.take (m + 1) from by simp,
          show (c :: cs').drop (m + 2) = cs'.drop (m + 1) from by simp]
        show (c.toList ++ BTree.toListChildren (cs'.take (m + 1)))
            ++ BTree.toListChildren (cs'.drop (m + 1))
          = c.toList ++ BTree.toListChildren cs'
        rw [List.append_assoc, hT]
/-- Splitting a sorted leaf's content at `ceil(n/2)`: both halves are
well-formed leaves around the right half's first key, which lies strictly
inside the window, and the records concatenate back. -/
lemma leafSplit_WF (order : Nat) (lo hi : Option Int) (ks : List Int) (vs : List Int)
    (hsort : ks.Chain' (· < ·)) (hlen : ks.length = vs.length)
    (hbound : ∀ x ∈ ks, loLE lo x ∧ hiGT hi x)
    (hn : 2 ≤ ks.length) :
    WF order lo (some ((ks.drop ((ks.length + 1) / 2)).getD 0 0))
      (.leaf (ks.take ((ks.length + 1) / 2)) (vs.take ((ks.length + 1) / 2))) ∧
    WF order (some ((ks.drop ((ks.length + 1) / 2)).getD 0 0)) hi
      (.leaf (ks.drop ((ks.length + 1) / 2)) (vs.drop ((ks.length + 1) / 2))) ∧
    loLT lo ((ks.drop ((ks.length + 1) / 2)).getD 0 0) ∧
    hiGT hi ((ks.drop ((ks.length + 1) / 2)).getD 0 0) ∧
    (ks.take ((ks.length + 1) / 2)).zip (vs.take ((ks.length + 1) / 2))
      ++ (ks.drop ((ks.length + 1) / 2)).zip (vs.drop ((ks.length + 1) / 2))
      = ks.zip vs := by
  have hK1 : 1 ≤ (ks.length + 1) / 2 := by omega
  have hK2 : (ks.length + 1) / 2 < ks.length := by omega
  have hp : ks.Pairwise (· < ·) := List.chain'_iff_pairwise.1 hsort
  have hdec : ks.take ((ks.length + 1) / 2) ++ ks.drop ((ks.length + 1) / 2) = ks :=
    List.take_append_drop _ _
  have hpa := List.pairwise_append.1 (hdec ▸ hp)
  obtain ⟨hpt, hpd, hcross⟩ := hpa
  have hdpos : 0 < (ks.drop ((ks.length + 1) / 2)).length := by
    simp
    omega
  have hdne : ks.drop ((ks.length + 1) / 2) ≠ [] := List.ne_nil_of_length_pos hdpos
  obtain ⟨sk, tl, hd⟩ := List.exists_cons_of_ne_nil hdne
  have hget : (ks.drop ((ks.length + 1) / 2)).getD 0 0 = sk := by
    rw [hd]
    exact List.getD_cons_zero
  rw [hget]
  have hskmem : sk ∈ ks.drop ((ks.length + 1) / 2) := by
    rw [hd]
    exact List.mem_cons_self _ _
  have hskks : sk ∈ ks := List.mem_of_mem_drop hskmem
  have htpos : 0 < (ks.take ((ks.length + 1) / 2)).length := by
    rw [List.length_take]
    omega
  obtain ⟨x0, tl0, hd0⟩ := List.exists_cons_of_ne_nil (List.ne_nil_of_length_pos htpos)
  have hx0 : x0 ∈ ks.take ((ks.length + 1) / 2) := by
    rw [hd0]
    exact List.mem_cons_self _ _
  have hx0ks : x0 ∈ ks := List.mem_of_mem_take hx0
  refine ⟨?_, ?_, ?_, ?_, ?_⟩
  · refine WF.leaf (hsort.take _) ?_ ?_
    · simp [List.length_take, hlen]
    · intro x hx
      refine ⟨(hbound x (List.mem_of_mem_take hx)).1, ?_⟩
      intro a ha
      cases ha
      exact hcross x hx sk hskmem
  · refine WF.leaf (hsort.drop _) ?_ ?_
    · simp [hlen]
    · intro x hx
      refine ⟨?_, (hbound x (List.mem_of_mem_drop hx)).2⟩
      intro a ha
      cases ha
      rw [hd] at hx
      rcases List.mem_cons.1 hx with he | ht
      · omega
      · have hlt : sk < x := (List.pairwise_cons.1 (hd ▸ hpd)).1 x ht
        omega
  · intro a ha
    have h1 : a ≤ x0 := (hbound x0 hx0ks).1 a ha
    have h2 : x0 < sk := hcross x0 hx0 sk hskmem
    omega
  · exact (hbound sk hskks).2
  · rw [← List.zip_append (by simp [List.length_take, hlen])]
    rw [List.take_append_drop, List.take_append_drop]

mutual
/-- One `insertAux` call on a well-formed tree satisfies `InsSpec`: the
result is well-formed and its records are the model-level insertion,
whether or not a pair is promoted. -/
theorem insertAux_model (order : Nat) (h2 : 2 ≤ order) (k : Int) (v : Int) :
    ∀ (t : BTree) (lo hi : Option Int), WF order lo hi t →
      loLE lo k → hiGT hi k →
      InsSpec order k v lo hi t (BPlusTree.insertAux order k v t)
  | .leaf ks vs, lo, hi, hwf, hlo, hhi => by
    cases hwf with
    | leaf hsort hlen hbound =>
      obtain ⟨ih1, ih2, ih3, ih4⟩ := leafInsert_model k v ks vs hsort hlen
      have hbound' : ∀ x ∈ (LeafNode.insert ks vs k v).1, loLE lo x ∧ hiGT hi x := by
        intro x hx
        rcases ih4 x hx with hc | hc
        · exact hbound x hc
        · subst hc
          exact ⟨hlo, hhi⟩
      simp only [BPlusTree.insertAux]
      by_cases hle : (LeafNode.insert ks vs k v).1.length ≤ order
      · rw [if_pos hle]
        simp only [InsSpec, BTree.toList]
        exact ⟨WF.leaf ih1 ih2 hbound', ih3⟩
      · rw [if_neg hle]
        have hn : 2 ≤ (LeafNode.insert ks vs k v).1.length := by omega
        rw [leafSplit_eq _ _ ih1 ih2]
        obtain ⟨hW1, hW2, hW3, hW4, hW5⟩ :=
          leafSplit_WF order lo hi (LeafNode.insert ks vs k v).1
            (LeafNode.insert ks vs k v).2.1 ih1 ih2 hbound' hn
        simp only [InsSpec, BTree.toList]
        exact ⟨hW1, hW2, hW3, hW4, hW5.trans ih3⟩
  | .internal seps cs, lo, hi, hwf, hlo, hhi => by
    cases hwf with
    | internal hs =>
      have hspec := insertChildren_model order h2 k v seps cs lo hi hs hlo hhi
      simp only [BPlusTree.insertAux]
      cases hd : BPlusTree.insertChildren order k v seps cs with
      | mk pr promo =>
        rw [hd] at hspec
        simp only [InsChildrenSpec] at hspec
        cases promo with
        | none =>
          obtain ⟨hseq, hwfs', htl⟩ := hspec
          rw [hseq]
          simp only [InsSpec, BTree.toList]
          exact ⟨WF.internal hwfs', htl⟩
        | some skr =>
          obtain ⟨sk, right⟩ := skr
          obtain ⟨hseq, hLT, hGT, hW, hlen1, htl⟩ := hspec
          rw [hseq]
          dsimp only
          by_cases hov : (InternalNode.insertKeyAndChild seps pr.2 sk right).1.length ≥ order
          · rw [if_pos hov]
            have hL2 : 2 ≤ (InternalNode.insertKeyAndChild seps pr.2 sk right).1.length := by
              omega
            obtain ⟨hS1, hS2, hS3, hS4, hS5⟩ :=
              WFs_split order
                (((InternalNode.insertKeyAndChild seps pr.2 sk right).1.length + 2) / 2)
                (InternalNode.insertKeyAndChild seps pr.2 sk right).1
                (InternalNode.insertKeyAndChild seps pr.2 sk right).2
                lo hi hW (by omega) (by omega)
            simp only [InternalNode.split, InsSpec, BTree.toList]
            exact ⟨WF.internal hS1, WF.internal hS2, hS3, hS4, hS5.trans htl⟩
          · rw [if_neg hov]
            simp only [InsSpec, BTree.toList]
            exact ⟨WF.internal hW, htl⟩

/-- One `insertChildren` call on a well-formed chain satisfies
`InsChildrenSpec`: the separators pass through, the target child is replaced
by its insertion result and a promoted pair, if any, will splice in
correctly. -/
theorem insertChildren_model (order : Nat) (h2 : 2 ≤ order) (k : Int) (v : Int) :
    ∀ (seps : List Int) (cs : List BTree) (lo hi : Option Int),
      WFs order lo hi seps cs → loLE lo k → hiGT hi k →
      InsChildrenSpec order k v lo hi seps cs
        (BPlusTree.insertChildren order k v seps cs)
  | _, [], _, _, hwfs, _, _ => by cases hwfs
  | [], c :: cs', lo, hi, hwfs, hlo, hhi => by
    cases hwfs with
    | single hc =>
      have hspec := insertAux_model order h2 k v c lo hi hc hlo hhi
      simp only [BPlusTree.insertChildren]
      cases hr : BPlusTree.insertAux order k v c with
      | mk t' promo =>
        rw [hr] at hspec
        simp only [InsSpec] at hspec
        cases promo with
        | none =>
          obtain ⟨hwf', htl⟩ := hspec
          simp only [InsChildrenSpec]
          refine ⟨trivial, WFs.single hwf', ?_⟩
          simp only [BTree.toListChildren, List.append_nil]
          exact htl
        | some skr =>
          obtain ⟨sk, r'⟩ := skr
          obtain ⟨hwl, hwr, hlt, hgt, hcat⟩ := hspec
          simp only [InsChildrenSpec, InternalNode.insertKeyAndChild, List.isEmpty_nil,
            if_true]
          refine ⟨trivial, hlt, hgt, ?_, rfl, ?_⟩
          · simp only [List.nil_append, List.cons_append]
            exact WFs.cons hlt hgt hwl (WFs.single hwr)
          · simp only [List.nil_append, List.cons_append, BTree.toListChildren,
              List.append_nil]
            exact hcat
  | s :: seps', c :: cs', lo, hi, hwfs, hlo, hhi => by
    cases hwfs with
    | cons hslo hshi hc hrest =>
      simp only [BPlusTree.insertChildren]
      by_cases hsk : s > k
      · rw [if_pos hsk]
        have hhic : hiGT (some s) k := by
          intro a ha
          cases ha
          exact hsk
        have hspec := insertAux_model order h2 k v c lo (some s) hc hlo hhic
        have hrestGT : ∀ p ∈ BTree.toListChildren cs', k < p.1 := by
          intro p hp
          have := (toListChildren_bounds order seps' cs' (some s) hi hrest p hp).1 s rfl
          omega
        cases hr : BPlusTree.insertAux order k v c with
        | mk t' promo =>
          rw [hr] at hspec
          simp only [InsSpec] at hspec
          cases promo with
          | none =>
            obtain ⟨hwf', htl⟩ := hspec
            simp only [InsChildrenSpec]
            refine ⟨trivial, WFs.cons hslo hshi hwf' hrest, ?_⟩
            show t'.toList ++ BTree.toListChildren cs'
              = modelInsert (c.toList ++ BTree.toListChildren cs') k v
            rw [modelInsert_append_right _ _ _ _ hrestGT, htl]
          | some skr =>
            obtain ⟨sk, r'⟩ := skr
            obtain ⟨hwl, hwr, hlt, hgt, hcat⟩ := hspec
            have hsks : sk < s := hgt s rfl
            have hgt' : hiGT hi sk := by
              intro a ha
              have := hshi a ha
              omega
            have hpos0 : InternalNode.insertPos (s :: seps') sk = 0 := by
              simp [InternalNode.insertPos, show ¬ sk > s by omega]
            simp only [InsChildrenSpec, InternalNode.insertKeyAndChild,
              List.isEmpty_cons, Bool.false_eq_true, if_false, hpos0,
              List.take_zero, List.drop_zero, List.take_succ_cons, List.take_zero,
              List.drop_succ_cons, List.drop_zero, List.nil_append]
            refine ⟨trivial, hlt, hgt', ?_, by simp, ?_⟩
            · have hslt : loLT (some sk) s := by
                intro a ha
                cases ha
                exact hsks
              exact WFs.cons hlt hgt' hwl (WFs.cons hslt hshi hwr hrest)
            · show t'.toList ++ (r'.toList ++ BTree.toListChildren cs')
                = modelInsert (c.toList ++ BTree.toListChildren cs') k v
              rw [modelInsert_append_right _ _ _ _ hrestGT, ← hcat, List.append_assoc]
      · rw [if_neg hsk]
        have hlos : loLE (some s) k := by
          intro a ha
          cases ha
          omega
        have hspec := insertChildren_model order h2 k v seps' cs' (some s) hi hrest hlos hhi
        have hcLT : ∀ p ∈ c.toList, p.1 < k := by
          intro p hp
          have := (toList_bounds order c lo (some s) hc p hp).2 s rfl
          omega
        cases hd : BPlusTree.insertChildren order k v seps' cs' with
        | mk pr promo =>
          rw [hd] at hspec
          simp only [InsChildrenSpec] at hspec
          cases promo with
          | none =>
            obtain ⟨hseq, hwfs', htl⟩ := hspec
            simp only [InsChildrenSpec]
            refine ⟨by rw [hseq], WFs.cons hslo hshi hc hwfs', ?_⟩
            show c.toList ++ BTree.toListChildren pr.2
              = modelInsert (c.toList ++ BTree.toListChildren cs') k v
            rw [modelInsert_append_left _ _ _ _ hcLT, htl]
          | some skr =>
            obtain ⟨sk, r'⟩ := skr
            obtain ⟨hseq, hlt', hgt, hW, hlen1, htl⟩ := hspec
            have hsks : s < sk := hlt' s rfl
            have hlt2 : loLT lo sk := by
              intro a ha
              have := hslo a ha
              omega
            have hlen2 : pr.2.length = seps'.length + 1 := by
              have ha := WFs_length order _ _ _ _ hW
              have hb := insertKeyAndChild_len2 seps' pr.2 sk r'
              omega
            have hcomm := insertKeyAndChild_cons s sk seps' c r' pr.2 hsks hlen2
            simp only [InsChildrenSpec, hcomm]
            refine ⟨by rw [hseq], hlt2, hgt, ?_, ?_, ?_⟩
            · exact WFs.cons hslo hshi hc hW
            · simp only [List.length_cons]
              omega
            · show c.toList
                  ++ BTree.toListChildren (InternalNode.insertKeyAndChild seps' pr.2 sk r').2
                = modelInsert (c.toList ++ BTree.toListChildren cs') k v
              rw [modelInsert_append_left _ _ _ _ hcLT, htl]
end

/-- The public `insert` (including new-root creation) preserves
well-formedness over the unbounded window and applies the model-level
insertion to the records. -/
theorem treeInsert_model (order : Nat) (h2 : 2 ≤ order) (k : Int) (v : Int)
    (t : BTree) (hwf : WF order none none t) :
    WF order none none (BPlusTree.insert order t k v) ∧
    (BPlusTree.insert order t k v).toList = modelInsert t.toList k v := by
  have hnone1 : loLE none k := by intro a ha; cases ha
  have hnone2 : hiGT none k := by intro a ha; cases ha
  have hspec := insertAux_model order h2 k v t none none hwf hnone1 hnone2
  unfold BPlusTree.insert
  cases hr : BPlusTree.insertAux order k v t with
  | mk t' promo =>
    rw [hr] at hspec
    simp only [InsSpec] at hspec
    cases promo with
    | none =>
      dsimp only
      exact hspec
    | some skr =>
      obtain ⟨sk, r⟩ := skr
      obtain ⟨hwl, hwr, hlt, hgt, hcat⟩ := hspec
      dsimp only
      constructor
      · exact WF.internal (WFs.cons hlt hgt hwl (WFs.single hwr))
      · show BTree.toListChildren [t', r] = modelInsert t.toList k v
        simp only [BTree.toListChildren, BTree.toList, List.append_nil]
        exact hcat

/-- Folding a sequence of inserts from a well-formed tree keeps it
well-formed and folds the model-level insertion over the records. -/
theorem insertAll_model (order : Nat) (h2 : 2 ≤ order) :
    ∀ (ops : List (Int × Int)) (t : BTree), WF order none none t →
      WF order none none (BPlusTree.insertAll order t ops) ∧
      (BPlusTree.insertAll order t ops).toList
        = ops.foldl (fun l kv => modelInsert l kv.1 kv.2) t.toList
  | [], t, hwf => ⟨hwf, rfl⟩
  | kv :: ops, t, hwf => by
    obtain ⟨hwf', htl'⟩ := treeInsert_model order h2 kv.1 kv.2 t hwf
    obtain ⟨hA, hB⟩ := insertAll_model order h2 ops (BPlusTree.insert order t kv.1 kv.2) hwf'
    refine ⟨hA, ?_⟩
    rw [show BPlusTree.insertAll order t (kv :: ops)
        = BPlusTree.insertAll order (BPlusTree.insert order t kv.1 kv.2) ops from rfl]
    rw [hB, List.foldl_cons, htl']

/-- C1.  For every sequence of `insert(key, value)` calls with no deletions,
starting from a freshly constructed tree (any order at least 2), `search(k)`
afterwards returns the most recently inserted value for every inserted key
`k`, and search of a key never inserted returns empty (`lastInserted` is
`none` exactly for keys never inserted). -/
theorem C1_round_trip (order : Nat) (h2 : 2 ≤ order) (ops : List (Int × Int)) (k : Int) :
    BPlusTree.search (BPlusTree.insertAll order BPlusTree.empty ops) k
      = lastInserted ops k := by
  have hwf0 : WF order none none BPlusTree.empty :=
    WF.leaf List.chain'_nil rfl (by intro x hx; cases hx)
  obtain ⟨hwf, htl⟩ := insertAll_model order h2 ops BPlusTree.empty hwf0
  have hsearch := search_toList order k (BPlusTree.insertAll order BPlusTree.empty ops)
    none none hwf (by intro a ha; cases ha) (by intro a ha; cases ha)
  rw [hsearch, htl]
  rw [show BTree.toList BPlusTree.empty = ([] : List (Int × Int)) from rfl]
  rw [lookup_foldl_modelInsert k ops []]
  cases lastInserted ops k with
  | none => exact modelLookup_nil k
  | some v => rfl

/-- Witness for C1 at order 4 with the operation sequence
`(10,1), (20,2), (10,3)`: the repeated key reads back its most recent value
and an absent key reads back empty. -/
theorem C1_witness :
    2 ≤ 4 ∧
    BPlusTree.search
      (BPlusTree.insertAll 4 BPlusTree.empty [(10, 1), (20, 2), (10, 3)]) 10 = some 3 ∧
    BPlusTree.search
      (BPlusTree.insertAll 4 BPlusTree.empty [(10, 1), (20, 2), (10, 3)]) 99 = none :=
  ⟨by decide,
   (C1_round_trip 4 (by decide) [(10, 1), (20, 2), (10, 3)] 10).trans (by decide),
   (C1_round_trip 4 (by decide) [(10, 1), (20, 2), (10, 3)] 99).trans (by decide)⟩
